import Mathlib

/-!
Verification of the matrix toolkit (src/src/matrix.rs).

The source is a small exact-arithmetic linear-algebra module over an abstract
field: shape queries, transpose, identity construction and test, scalar and
vector operations, matrix multiplication, vector application, a
determinant/cofactor engine, cofactor-adjugate inversion, and Gaussian
elimination with a shadow identity matrix.

Embedding conventions:
* A matrix is a `List (List F)` of rows, exactly as in the source
  (`type Matrix<T> = Vec<Vec<T>>`).
* Out-of-range indexing uses `List.getD` with default `0` (resp. `[]`); the
  theorems carry well-formedness hypotheses matching the source's documented
  preconditions, so the defaulted values are never relied upon.
* A Rust `panic!` / failed `assert!` / `unwrap()` on `None` is modelled as an
  `Option` result of `none`.  In particular the elimination pipeline
  (`eliminate`, `upper_triangular`, `solve`, `invert`) returns `Option`,
  where `none` means the source aborts fatally.  Since the source `invert`
  itself returns `Option<Matrix>`, the embedded `invert` has type
  `Option (Option (Mat F))`: the outer layer is the fatal-abort channel, the
  inner layer is the source's own return type.
* The mutual recursion `determinant`/`cofactor` of the source is realised
  through the fuel-indexed `detFuel` (fuel bounds the matrix size, which
  strictly decreases through `minor`); `detFuel_congr` shows the fuel is
  irrelevant once it is at least the row count, and
  `determinant_expansion`/`cofactor_eq` recover the source's recursion
  equations verbatim.
-/

set_option linter.unusedSectionVars false

instance : Fact (Nat.Prime 11) := ⟨by norm_num⟩

namespace Neptune

/-- `rows`: count of rows (source line 9). -/
def rows {α : Type} (m : List (List α)) : Nat := m.length

/-- `columns`: length of row 0 if any rows exist, else 0 (source line 15).
The source also asserts that every row has that length (`panic!("not a
matrix")` otherwise); that precondition is the predicate `wellFormed` below. -/
def columns {α : Type} (m : List (List α)) : Nat :=
  match m with
  | [] => 0
  | r :: _ => r.length

/-- The well-formedness precondition enforced by the source `columns`:
every row has the length of row 0. -/
def wellFormed {α : Type} (m : List (List α)) : Prop :=
  ∀ r ∈ m, r.length = columns m

/-- Rows all of length `n`; `wellFormed m` is exactly `Wd (columns m) m`. -/
def Wd {α : Type} (n : Nat) (m : List (List α)) : Prop := ∀ r ∈ m, r.length = n

instance {α : Type} (m : List (List α)) : Decidable (wellFormed m) :=
  inferInstanceAs (Decidable (∀ r ∈ m, r.length = columns m))

instance {α : Type} (n : Nat) (m : List (List α)) : Decidable (Wd n m) :=
  inferInstanceAs (Decidable (∀ r ∈ m, r.length = n))

/-- `is_square` (source line 221). -/
def is_square {α : Type} (m : List (List α)) : Bool :=
  decide (rows m = columns m)

variable {F : Type} [Field F] [DecidableEq F]

/-- A matrix over the field, as a list of rows. -/
abbrev Mat (F : Type) : Type := List (List F)

/-- Entry `m[i][j]`, defaulting to `0` out of range. -/
def entry (m : Mat F) (i j : Nat) : F := (m.getD i []).getD j 0

/-- `scalar_mul` (source line 46): multiply every entry by `scalar` on the left. -/
def scalar_mul (scalar : F) (m : Mat F) : Mat F :=
  m.map (fun row => row.map (fun val => scalar * val))

/-- `scalar_vec_mul` (source line 61). -/
def scalar_vec_mul (scalar : F) (v : List F) : List F :=
  v.map (fun val => scalar * val)

/-- `vec_mul` (source line 107): dot product, folding over the zip. -/
def vec_mul (a b : List F) : F :=
  (a.zip b).foldl (fun acc p => acc + p.1 * p.2) 0

/-- `vec_add` (source line 118): element-wise sum over the zip of the inputs.
Note the source performs no length check. -/
def vec_add (a b : List F) : List F :=
  (a.zip b).map (fun p => p.1 + p.2)

/-- `vec_sub` (source line 129): element-wise difference over the zip.
Note the source performs no length check. -/
def vec_sub (a b : List F) : List F :=
  (a.zip b).map (fun p => p.1 - p.2)

/-- `transpose` (source line 185): `size = rows m`, new matrix with
`new[j][i] = m[i][j]` for `i j < size`. -/
def transpose (m : Mat F) : Mat F :=
  (List.range (rows m)).map (fun j => (List.range (rows m)).map (fun i => entry m i j))

/-- `make_identity` (source line 198). -/
def make_identity (n : Nat) : Mat F :=
  (List.range n).map (fun i => (List.range n).map (fun j => if i = j then (1 : F) else 0))

/-- `is_identity` (source line 206): every entry equals the Kronecker delta. -/
def is_identity (m : Mat F) : Bool :=
  (List.range (rows m)).all (fun i =>
    (List.range (columns m)).all (fun j =>
      decide (entry m i j = if i = j then (1 : F) else 0)))

/-- `minor` (source line 283): delete row `i` and column `j`. -/
def minor (m : Mat F) (i j : Nat) : Mat F :=
  (m.eraseIdx i).map (fun row => row.eraseIdx j)

/-- Fuel-indexed realisation of the mutual recursion
`determinant`/`cofactor` (source lines 225 and 266): Laplace expansion along
row 0, the cofactor logic inlined.  The fuel strictly exceeds the row count
of every matrix the recursion reaches, so `detFuel (rows m) m` computes the
source's value (see `detFuel_congr`). -/
def detFuel : Nat → Mat F → F
  | 0, _ => 0
  | fuel + 1, m =>
    (List.range (columns m)).foldl
      (fun acc j =>
        let minor_det := if rows m = 1 then (1 : F) else detFuel fuel (minor m 0 j)
        let cof := if (0 + j) % 2 = 0 then minor_det else -minor_det
        acc + entry m 0 j * cof) 0

/-- `determinant` (source line 225). -/
def determinant (m : Mat F) : F := detFuel (rows m) m

/-- `cofactor` (source line 266): the minor determinant (1 for a 1×1 input),
negated when `i + j` is odd. -/
def cofactor (m : Mat F) (i j : Nat) : F :=
  let minor_det := if rows m = 1 then (1 : F) else determinant (minor m i j)
  if (i + j) % 2 = 0 then minor_det else -minor_det

/-- `cofactor_matrix` (source line 252). -/
def cofactor_matrix (m : Mat F) : Mat F :=
  (List.range (rows m)).map (fun i => (List.range (rows m)).map (fun j => cofactor m i j))

/-- `determinant_with_cofactor_matrix` (source line 237): fold over the zip of
row 0 of the matrix with row 0 of the cofactor matrix; `none` models the
out-of-range `matrix[0]` (or `cofactor_matrix[0]`) index panic when an
argument is the empty matrix. -/
def determinant_with_cofactor_matrix (m c : Mat F) : Option F :=
  match m, c with
  | mr :: _, cr :: _ => some ((mr.zip cr).foldl (fun acc p => acc + p.1 * p.2) 0)
  | _, _ => none

/-- `invert_with_cofactors` (source line 32): determinant-then-adjugate. The
outer `none` models a fatal abort: the `columns` panic on ragged input and
the `assert!(is_square(matrix))` at the head of `cofactor_matrix` (modeled
here at its sole call site), and the `matrix[0]` index panic of
`determinant_with_cofactor_matrix` on the empty matrix. The inner `none` is
the source's own `None`, produced by `determinant.inverse()?` exactly when
the determinant is zero. -/
def invert_with_cofactors (m : Mat F) : Option (Option (Mat F)) :=
  if ¬ wellFormed m then none
  else if ¬ is_square m = true then none
  else
    match determinant_with_cofactor_matrix m (cofactor_matrix m) with
    | none => none
    | some det =>
      if det = 0 then some none
      else some (some (scalar_mul det⁻¹ (transpose (cofactor_matrix m))))

/-- `is_invertible` (source line 42). -/
def is_invertible (m : Mat F) : Bool :=
  is_square m && decide (determinant m ≠ 0)

/-- `mat_mul` (source line 85). The outer `none` models a fatal abort:
`columns b` panics when `b` is ragged; `transpose b` reads `b[i][j]` for
`i, j < rows b` and panics when some row of `b` is shorter than `rows b`;
and the inner loop reads `b_t[j]` for `j < columns b` while `b_t` has only
`rows b` rows, panicking when `rows b < columns b` (once `0 < rows a`, so
that the loop body runs). The inner `none` is the source's own `None` on
the failed `rows a = columns b` conformability check. -/
def mat_mul (a b : Mat F) : Option (Option (Mat F)) :=
  if ¬ wellFormed b then none
  else if rows a ≠ columns b then some none
  else if ∃ r ∈ b, r.length < rows b then none
  else if 0 < rows a ∧ rows b < columns b then none
  else
    let b_t := transpose b
    some (some ((List.range (rows a)).map (fun i =>
      (List.range (columns b)).map (fun j => vec_mul (a.getD i []) (b_t.getD j [])))))

/-- `apply_matrix` (source line 165): right-multiplication `v · M`, the
result's `j`-th entry accumulating `m[i][j] * v[i]` over the rows of `m`.
The source's size assertions hold under the hypotheses of the theorems
below. -/
def apply_matrix (m : Mat F) (v : List F) : List F :=
  (List.range v.length).map (fun j =>
    (List.range (rows m)).foldl (fun acc i => acc + entry m i j * v.getD i 0) 0)

/-- `eliminate` (source line 307): requires a nonzero pivot entry (`none`
models the failed assertion), keeps the pivot row first, subtracts
`(val / pivot_val) · pivot` from every other row whose entry in `column` is
nonzero, mirroring the operation on the shadow. -/
def eliminate (matrix : Mat F) (column pivot_index : Nat) (shadow : Mat F) :
    Option (Mat F × Mat F) :=
  let pivot := matrix.getD pivot_index []
  let pivot_val := pivot.getD column 0
  if pivot_val = 0 then none
  else
    let inv_pivot := pivot_val⁻¹
    let result := pivot :: (matrix.eraseIdx pivot_index).map (fun row =>
      let val := row.getD column 0
      if val = 0 then row
      else vec_sub row (scalar_vec_mul (val * inv_pivot) pivot))
    let shadow_pivot := shadow.getD pivot_index []
    let newShadow := (List.range shadow.length).map (fun i =>
      if i = pivot_index then shadow.getD i []
      else
        let val := (matrix.getD i []).getD column 0
        if val = 0 then shadow.getD i []
        else vec_sub (shadow.getD i []) (scalar_vec_mul (val * inv_pivot) shadow_pivot))
    some (result, newShadow)

/-- The loop of `upper_triangular` (source line 350): while more than one row
remains, eliminate the current column with pivot row 0, push the pivot row
and its shadow row, and peel both off.  The fuel (instantiated with the row
count, which bounds the iteration count) makes the recursion structural;
`none` on exhausted fuel is unreachable in every run the theorems touch. -/
def utTerm (curr shadow result shadow_result : Mat F) : Option (Mat F × Mat F) :=
  match curr, shadow with
  | c0 :: _, s0 :: _ => some (result ++ [c0], shadow_result ++ [s0])
  | _, _ => none

def utLoop : Nat → Mat F → Mat F → Nat → Mat F → Mat F → Option (Mat F × Mat F)
  | 0, curr, shadow, _column, result, shadow_result =>
    if 1 < curr.length then none
    else utTerm curr shadow result shadow_result
  | fuel + 1, curr, shadow, column, result, shadow_result =>
    if 1 < curr.length then
      match eliminate curr column 0 shadow with
      | none => none
      | some (curr', shadow') =>
        utLoop fuel (curr'.drop 1) (shadow'.drop 1) (column + 1)
          (result ++ [curr'.headD []]) (shadow_result ++ [shadow'.headD []])
    else utTerm curr shadow result shadow_result

/-- `upper_triangular` (source line 350); asserts squareness, then runs the
elimination loop. -/
def upper_triangular (matrix shadow : Mat F) : Option (Mat F × Mat F) :=
  if is_square matrix then utLoop matrix.length matrix shadow 0 [] [] else none

/-- The inner loop body of `solve` (source lines 402-410): subtract
`normalized[idx2]` times the already-processed row `j` (and its shadow
counterpart) from the row being processed. -/
def solveStep (size : Nat) (result shadow_result : Mat F)
    (q : List F × List F) (j : Nat) : List F × List F :=
  let idx2 := size - j - 1
  let v := q.1.getD idx2 0
  (vec_sub q.1 (scalar_vec_mul v (result.getD j [])),
   vec_sub q.2 (scalar_vec_mul v (shadow_result.getD j [])))

/-- The loop of `solve` (source line 383), processing rows bottom-up.  The
counter `r` (remaining iterations, initially `size`) makes the recursion
structural; `i` is the source's loop variable.  `none` models the
`unwrap()` panic on a zero diagonal entry. -/
def solveLoop (matrix shadow : Mat F) (size : Nat) :
    Nat → Nat → Mat F → Mat F → Option (Mat F × Mat F)
  | 0, _, result, shadow_result => some (result, shadow_result)
  | r + 1, i, result, shadow_result =>
    let idx := size - i - 1
    let row := matrix.getD idx []
    let shadow_row := shadow.getD idx []
    let val := row.getD idx 0
    if val = 0 then none
    else
      let inv := val⁻¹
      let normalized := scalar_vec_mul inv row
      let shadow_normalized := scalar_vec_mul inv shadow_row
      let p := (List.range i).foldl (solveStep size result shadow_result)
        (normalized, shadow_normalized)
      solveLoop matrix shadow size r (i + 1) (result ++ [p.1]) (shadow_result ++ [p.2])

/-- `solve` (source line 383): back-substitution on an upper-triangular
matrix, mirrored on the shadow; both accumulators are reversed at the end. -/
def solve (matrix shadow : Mat F) : Option (Mat F × Mat F) :=
  match solveLoop matrix shadow (rows matrix) (rows matrix) 0 [] [] with
  | none => none
  | some (result, shadow_result) => some (result.reverse, shadow_result.reverse)

/-- `invert` (source line 424): initialise the shadow to the identity,
upper-triangularise, back-substitute, and return the final shadow wrapped in
`Some`.  The outer `Option` is the fatal-abort channel (zero pivot during
elimination, zero diagonal during back-substitution); the inner `Option` is
the source function's own return type, which is always `Some`. -/
def invert (matrix : Mat F) : Option (Option (Mat F)) :=
  match upper_triangular matrix (make_identity (columns matrix)) with
  | none => none
  | some (ut, shadow) =>
    match solve ut shadow with
    | none => none
    | some (_res, shadow') => some (some shadow')

/-- Abstraction of a list matrix as a Mathlib square matrix of size `n`. -/
def toMatrix (m : Mat F) (n : Nat) : Matrix (Fin n) (Fin n) F :=
  Matrix.of (fun i j => entry m i.val j.val)

/-- The shadow invariant of the elimination pipeline: every row of `st` is
the linear combination of the rows of `m0` whose coefficients are the
corresponding row of `sh`. -/
def Tracks (m0 st sh : Mat F) : Prop :=
  ∀ i j, entry st i j = ∑ k in Finset.range m0.length, entry sh i k * entry m0 k j

/-- Row-level form of `Tracks`. -/
def rowTracks (m0 : Mat F) (v w : List F) : Prop :=
  ∀ s, v.getD s 0 = ∑ k in Finset.range m0.length, w.getD k 0 * entry m0 k s

/-! ## Basic list and entry lemmas -/

theorem wellFormed_iff_Wd {α : Type} (m : List (List α)) : wellFormed m ↔ Wd (columns m) m :=
  Iff.rfl

theorem getD_map_range {α : Type} (f : Nat → α) (d : α) {n i : Nat} (h : i < n) :
    ((List.range n).map f).getD i d = f i := by
  simp [List.getD_eq_getElem?_getD, List.getElem?_map, List.getElem?_range h]

theorem getD_map_range_ge {α : Type} (f : Nat → α) (d : α) {n i : Nat} (h : n ≤ i) :
    ((List.range n).map f).getD i d = d := by
  rw [List.getD_eq_getElem?_getD, List.getElem?_eq_none (by simpa using h)]
  rfl

theorem getD_ge {α : Type} (l : List α) (d : α) {i : Nat} (h : l.length ≤ i) :
    l.getD i d = d := by
  rw [List.getD_eq_getElem?_getD, List.getElem?_eq_none h]
  rfl

theorem eq_of_getD {α : Type} (d : α) {a b : List α} (hl : a.length = b.length)
    (h : ∀ i, a.getD i d = b.getD i d) : a = b := by
  apply List.ext_getElem hl
  intro n h1 h2
  have hn := h n
  rwa [List.getD_eq_getElem?_getD, List.getD_eq_getElem?_getD, List.getElem?_eq_getElem h1,
    List.getElem?_eq_getElem h2, Option.getD_some, Option.getD_some] at hn

variable {F : Type} [Field F] [DecidableEq F]

theorem getD_map_lt {α β : Type} (f : α → β) {l : List α} {i : Nat} (h : i < l.length)
    (d : α) (e : β) : (l.map f).getD i e = f (l.getD i d) := by
  rw [List.getD_eq_getElem?_getD, List.getElem?_map, List.getElem?_eq_getElem h,
    Option.map_some', Option.getD_some, List.getD_eq_getElem?_getD,
    List.getElem?_eq_getElem h, Option.getD_some]

theorem entry_tab (f : Nat → Nat → F) {n w i j : Nat} (hi : i < n) (hj : j < w) :
    entry ((List.range n).map (fun a => (List.range w).map (fun b => f a b))) i j = f i j := by
  show (((List.range n).map (fun a => (List.range w).map (fun b => f a b))).getD i []).getD j 0
    = f i j
  rw [getD_map_range _ _ hi, getD_map_range _ _ hj]

theorem entry_row_ge (m : Mat F) {i : Nat} (h : m.length ≤ i) (j : Nat) : entry m i j = 0 := by
  show (m.getD i []).getD j 0 = 0
  rw [getD_ge m [] h]
  rfl

theorem length_getD_of_Wd {n : Nat} {m : Mat F} (h : Wd n m) {i : Nat} (hi : i < m.length) :
    (m.getD i []).length = n := by
  rw [List.getD_eq_getElem?_getD, List.getElem?_eq_getElem hi, Option.getD_some]
  exact h _ (List.getElem_mem hi)

theorem entry_col_ge {n : Nat} {m : Mat F} (h : Wd n m) (i : Nat) {j : Nat} (hj : n ≤ j) :
    entry m i j = 0 := by
  rcases Nat.lt_or_ge i m.length with hi | hi
  · exact getD_ge _ _ (by rw [length_getD_of_Wd h hi]; exact hj)
  · exact entry_row_ge m hi j

theorem length_vec_sub (a b : List F) : (vec_sub a b).length = min a.length b.length := by
  simp [vec_sub]

theorem length_vec_add (a b : List F) : (vec_add a b).length = min a.length b.length := by
  simp [vec_add]

theorem getD_zip_op (op : F → F → F) (h0 : op 0 0 = 0) {a b : List F}
    (h : a.length = b.length) (i : Nat) :
    ((a.zip b).map (fun p => op p.1 p.2)).getD i 0 = op (a.getD i 0) (b.getD i 0) := by
  rcases Nat.lt_or_ge i a.length with hi | hi
  · have hz : i < (a.zip b).length := by simp [h ▸ hi, hi]
    rw [List.getD_eq_getElem?_getD, List.getElem?_map, List.getElem?_eq_getElem hz,
      Option.map_some', Option.getD_some, List.getElem_zip, List.getD_eq_getElem?_getD,
      List.getD_eq_getElem?_getD, List.getElem?_eq_getElem hi,
      List.getElem?_eq_getElem (h ▸ hi), Option.getD_some, Option.getD_some]
  · rw [getD_ge _ _ (by simp [h ▸ hi, hi]), getD_ge _ _ hi, getD_ge _ _ (h ▸ hi), h0]

theorem getD_vec_sub {a b : List F} (h : a.length = b.length) (i : Nat) :
    (vec_sub a b).getD i 0 = a.getD i 0 - b.getD i 0 :=
  getD_zip_op (fun x y => x - y) (sub_zero 0) h i

theorem getD_vec_add {a b : List F} (h : a.length = b.length) (i : Nat) :
    (vec_add a b).getD i 0 = a.getD i 0 + b.getD i 0 :=
  getD_zip_op (fun x y => x + y) (add_zero 0) h i

theorem length_scalar_vec_mul (s : F) (v : List F) : (scalar_vec_mul s v).length = v.length := by
  simp [scalar_vec_mul]

theorem getD_scalar_vec_mul (s : F) (v : List F) (i : Nat) :
    (scalar_vec_mul s v).getD i 0 = s * v.getD i 0 := by
  rcases Nat.lt_or_ge i v.length with hi | hi
  · rw [scalar_vec_mul, List.getD_eq_getElem?_getD, List.getElem?_map,
      List.getElem?_eq_getElem hi, Option.map_some', Option.getD_some,
      List.getD_eq_getElem?_getD, List.getElem?_eq_getElem hi, Option.getD_some]
  · rw [getD_ge _ _ (by simpa [scalar_vec_mul] using hi), getD_ge _ _ hi, mul_zero]

theorem entry_scalar_mul (s : F) (m : Mat F) (i j : Nat) :
    entry (scalar_mul s m) i j = s * entry m i j := by
  rcases Nat.lt_or_ge i m.length with hi | hi
  · show ((scalar_mul s m).getD i []).getD j 0 = s * (m.getD i []).getD j 0
    rw [scalar_mul, getD_map_lt _ hi []]
    exact getD_scalar_vec_mul s (m.getD i []) j
  · rw [entry_row_ge _ (by simpa [scalar_mul] using hi) j, entry_row_ge m hi j, mul_zero]

/-! ## Folds as finite sums -/

theorem foldl_add_eq {β : Type} (f : β → F) (l : List β) (b : F) :
    l.foldl (fun acc x => acc + f x) b = b + (l.map f).sum := by
  induction l generalizing b with
  | nil => simp
  | cons a l ih => simp [ih, add_assoc]

theorem sum_map_range (f : Nat → F) (n : Nat) :
    ((List.range n).map f).sum = ∑ j in Finset.range n, f j := by
  induction n with
  | zero => simp
  | succ n ih => simp [List.range_succ, Finset.sum_range_succ, ih]

theorem foldl_range_sum (f : Nat → F) (n : Nat) :
    (List.range n).foldl (fun acc j => acc + f j) 0 = ∑ j in Finset.range n, f j := by
  rw [foldl_add_eq, sum_map_range, zero_add]

theorem sum_map_zip (a : List F) : ∀ (b : List F),
    ((a.zip b).map (fun p => p.1 * p.2)).sum =
      ∑ k in Finset.range (min a.length b.length), a.getD k 0 * b.getD k 0 := by
  induction a with
  | nil => intro b; simp
  | cons x xs ih =>
    intro b
    cases b with
    | nil => simp
    | cons y ys =>
      simp only [List.zip_cons_cons, List.map_cons, List.sum_cons, ih ys, List.length_cons,
        Nat.succ_min_succ, Finset.sum_range_succ']
      simp [add_comm]

theorem vec_mul_eq_sum (a b : List F) :
    vec_mul a b = ∑ k in Finset.range (min a.length b.length), a.getD k 0 * b.getD k 0 := by
  rw [vec_mul, foldl_add_eq, zero_add, sum_map_zip]

/-! ## Shape lemmas -/

theorem columns_eq_of_Wd {α : Type} {n : Nat} {m : List (List α)} (h : Wd n m) (hne : m ≠ []) :
    columns m = n := by
  cases m with
  | nil => exact absurd rfl hne
  | cons r t => exact h r (by simp)

theorem Wd_tab {n w : Nat} (f : Nat → Nat → F) :
    Wd w ((List.range n).map (fun a => (List.range w).map (fun b => f a b))) := by
  intro r hr
  simp only [List.mem_map] at hr
  obtain ⟨i, _, rfl⟩ := hr
  simp

theorem length_tab {n w : Nat} (f : Nat → Nat → F) :
    ((List.range n).map (fun a => (List.range w).map (fun b => f a b))).length = n := by
  simp

theorem length_make_identity (n : Nat) : (make_identity n : Mat F).length = n := by
  simp [make_identity]

theorem Wd_make_identity (n : Nat) : Wd n (make_identity n : Mat F) :=
  Wd_tab (fun i j => if i = j then (1 : F) else 0)

theorem entry_make_identity {n i j : Nat} (hi : i < n) (hj : j < n) :
    entry (make_identity n : Mat F) i j = if i = j then 1 else 0 :=
  entry_tab (fun i j => if i = j then (1 : F) else 0) hi hj

theorem is_identity_iff (m : Mat F) :
    is_identity m = true ↔
      ∀ i < rows m, ∀ j < columns m, entry m i j = if i = j then 1 else 0 := by
  simp [is_identity, List.all_eq_true, List.mem_range]

theorem length_transpose (m : Mat F) : (transpose m).length = rows m := by
  simp [transpose]

theorem Wd_transpose (m : Mat F) : Wd (rows m) (transpose m) :=
  Wd_tab (fun j i => entry m i j)

theorem entry_transpose (m : Mat F) {i j : Nat} (hi : i < rows m) (hj : j < rows m) :
    entry (transpose m) i j = entry m j i :=
  entry_tab (fun a b => entry m b a) hi hj

theorem getD_transpose (m : Mat F) {j : Nat} (hj : j < rows m) :
    (transpose m).getD j [] = (List.range (rows m)).map (fun i => entry m i j) :=
  getD_map_range _ _ hj

/-! ## The determinant recursion -/

theorem rows_minor_zero {m : Mat F} (hne : m ≠ []) (j : Nat) :
    rows (minor m 0 j) = rows m - 1 := by
  cases m with
  | nil => exact absurd rfl hne
  | cons r t => simp [minor, rows, List.eraseIdx_cons_zero]

/-- The source recursion for `determinant`: Laplace expansion along row 0. -/
theorem determinant_expansion (m : Mat F) :
    determinant m = ∑ j in Finset.range (columns m), entry m 0 j * cofactor m 0 j := by
  cases m with
  | nil => simp [determinant, rows, detFuel, columns]
  | cons r t =>
    show detFuel (t.length + 1) (r :: t) = _
    simp only [detFuel]
    refine (foldl_range_sum (fun j => entry (r :: t) 0 j *
      (if (0 + j) % 2 = 0 then
        (if rows (r :: t) = 1 then (1 : F) else detFuel t.length (minor (r :: t) 0 j))
      else
        -(if rows (r :: t) = 1 then (1 : F) else detFuel t.length (minor (r :: t) 0 j))))
      (columns (r :: t))).trans ?_
    refine Finset.sum_congr rfl (fun j _ => ?_)
    have hmin : rows (minor (r :: t) 0 j) = t.length := by
      rw [rows_minor_zero (by simp) j]
      rfl
    simp only [cofactor, determinant, hmin]

theorem getD_map_default {α β : Type} (f : α → β) (d : α) (l : List α) (i : Nat) :
    (l.map f).getD i (f d) = f (l.getD i d) := by
  rcases Nat.lt_or_ge i l.length with hi | hi
  · exact getD_map_lt f hi d (f d)
  · rw [getD_ge _ _ (by simpa using hi), getD_ge _ _ hi]

theorem getD_eraseIdx_getD {α : Type} (l : List α) (i b : Nat) (d : α) :
    (l.eraseIdx i).getD b d = l.getD (if b < i then b else b + 1) d := by
  rw [List.getD_eq_getElem?_getD, List.getElem?_eraseIdx, List.getD_eq_getElem?_getD]
  by_cases hb : b < i <;> simp [hb]

theorem entry_minor (m : Mat F) (i j a b : Nat) :
    entry (minor m i j) a b
      = entry m (if a < i then a else a + 1) (if b < j then b else b + 1) := by
  show ((minor m i j).getD a []).getD b 0 = _
  have h1 : (minor m i j).getD a [] = ((m.eraseIdx i).getD a []).eraseIdx j := by
    exact getD_map_default (fun row => row.eraseIdx j) [] (m.eraseIdx i) a
  rw [h1, getD_eraseIdx_getD, getD_eraseIdx_getD]
  rfl
theorem getD_zip_op_lt (op : F → F → F) {a b : List F} {i : Nat}
    (hi : i < min a.length b.length) :
    ((a.zip b).map (fun p => op p.1 p.2)).getD i 0 = op (a.getD i 0) (b.getD i 0) := by
  have ha : i < a.length := lt_of_lt_of_le hi (min_le_left _ _)
  have hb : i < b.length := lt_of_lt_of_le hi (min_le_right _ _)
  have hz : i < (a.zip b).length := by rw [List.length_zip]; exact hi
  rw [List.getD_eq_getElem?_getD, List.getElem?_map, List.getElem?_eq_getElem hz,
    Option.map_some', Option.getD_some, List.getElem_zip,
    List.getD_eq_getElem?_getD, List.getElem?_eq_getElem ha, Option.getD_some,
    List.getD_eq_getElem?_getD, List.getElem?_eq_getElem hb, Option.getD_some]

/-! ## Claim theorems: simple shape and arithmetic claims -/

/-- C10: the determinant of the empty (0×0) matrix is the field's zero
element, not the conventional value 1, and consequently `is_invertible`
applied to the empty matrix is `false`, even though the empty matrix is
square. -/
theorem determinant_empty_matrix :
    ∀ (F : Type) [Field F] [DecidableEq F],
      determinant ([] : Mat F) = 0 ∧ determinant ([] : Mat F) ≠ 1 ∧
      is_invertible ([] : Mat F) = false ∧ is_square ([] : List (List F)) = true := by
  intro F _ _
  have h0 : determinant ([] : Mat F) = 0 := rfl
  refine ⟨h0, ?_, ?_, rfl⟩
  · rw [h0]
    exact zero_ne_one
  · simp [is_invertible, h0]

/-- C9 (amended): `vec_add` and `vec_sub` perform no length check and never
fail; they return the element-wise result over the zip of the two vectors,
whose length is the minimum of the two input lengths (truncation on
mismatch, not a fatal failure). -/
theorem vec_add_vec_sub_no_length_check :
    ∀ (F : Type) [Field F] [DecidableEq F] (a b : List F),
      (vec_add a b).length = min a.length b.length ∧
      (vec_sub a b).length = min a.length b.length ∧
      ∀ i, i < min a.length b.length →
        (vec_add a b).getD i 0 = a.getD i 0 + b.getD i 0 ∧
        (vec_sub a b).getD i 0 = a.getD i 0 - b.getD i 0 := by
  intro F _ _ a b
  refine ⟨length_vec_add a b, length_vec_sub a b, fun i hi => ?_⟩
  exact ⟨getD_zip_op_lt (fun x y => x + y) hi, getD_zip_op_lt (fun x y => x - y) hi⟩

/-- C9 counterexample: on mismatched lengths `[1]` and `[1, 2]`, `vec_add`
and `vec_sub` return ordinary truncated results instead of failing: the
source has no assertion (unlike `hadamard_vec_mul`), its `zip` silently
drops the extra element. -/
theorem vec_add_mismatched_returns_result :
    vec_add ([1] : List (ZMod 11)) [1, 2] = [2] ∧
    vec_sub ([1] : List (ZMod 11)) [1, 2] = [0] := by
  constructor <;> rfl

theorem vec_add_vec_sub_no_length_check_witness :
    (0 : Nat) < min ([1] : List (ZMod 11)).length [1, 2].length ∧
    (vec_add ([1] : List (ZMod 11)) [1, 2]).getD 0 0
      = ([1] : List (ZMod 11)).getD 0 0 + [1, 2].getD 0 0 :=
  ⟨by decide, ((vec_add_vec_sub_no_length_check (ZMod 11) [1] [1, 2]).2.2 0 (by decide)).1⟩

/-- C8: on square well-formed matrices, `transpose` is an involution. -/
theorem transpose_transpose_eq :
    ∀ (F : Type) [Field F] [DecidableEq F] (m : Mat F),
      wellFormed m → is_square m = true → transpose (transpose m) = m := by
  intro F _ _ m hwf hsq
  have hsq' : rows m = columns m := by simpa [is_square] using hsq
  have hw : Wd (rows m) m := fun r hr => by rw [hwf r hr, hsq']
  have hrt : rows (transpose m) = rows m := length_transpose m
  apply eq_of_getD []
  · rw [show (transpose (transpose m)).length = rows (transpose m) from length_transpose _, hrt]
    rfl
  · intro i
    rcases Nat.lt_or_ge i (rows m) with hi | hi
    · rw [getD_transpose (transpose m) (by rw [hrt]; exact hi)]
      apply eq_of_getD 0
      · rw [List.length_map, List.length_range, hrt, length_getD_of_Wd hw hi]
      · intro j
        rcases Nat.lt_or_ge j (rows m) with hj | hj
        · rw [hrt, getD_map_range _ _ hj, entry_transpose m hj hi]
          rfl
        · rw [hrt, getD_map_range_ge _ _ hj,
            getD_ge _ _ (by rw [length_getD_of_Wd hw hi]; exact hj)]
    · rw [getD_ge _ _ (by rw [show (transpose (transpose m)).length = rows (transpose m) from
        length_transpose _, hrt]; exact hi), getD_ge _ _ hi]

theorem transpose_transpose_eq_witness :
    wellFormed ([[1, 2], [3, 4]] : Mat (ZMod 11)) ∧
    is_square ([[1, 2], [3, 4]] : Mat (ZMod 11)) = true ∧
    transpose (transpose ([[1, 2], [3, 4]] : Mat (ZMod 11))) = [[1, 2], [3, 4]] :=
  ⟨by decide, by decide,
    transpose_transpose_eq (ZMod 11) [[1, 2], [3, 4]] (by decide) (by decide)⟩

/-- C4: `determinant` is the Laplace expansion along row 0,
`Σ_j m[0][j] * cofactor m 0 j`, where `cofactor m i j` is the determinant of
`minor m i j` (taken as 1 for a 1×1 matrix) negated exactly when `i + j` is
odd; and the two concrete cases evaluate as claimed over ℚ. -/
theorem determinant_laplace_and_cofactor :
    (∀ (F : Type) [Field F] [DecidableEq F] (m : Mat F),
      determinant m = ∑ j in Finset.range (columns m), entry m 0 j * cofactor m 0 j) ∧
    (∀ (F : Type) [Field F] [DecidableEq F] (m : Mat F) (i j : Nat),
      cofactor m i j =
        (if (i + j) % 2 = 0 then (1 : F) else -1) *
          (if rows m = 1 then 1 else determinant (minor m i j))) ∧
    determinant ([[1, 2, 3], [4, 5, 6], [7, 8, 8]] : Mat ℚ) = 3 ∧
    determinant ([[1, 2], [3, 8]] : Mat ℚ) = 2 := by
  refine ⟨fun F _ _ m => determinant_expansion m, fun F _ _ m i j => ?_, ?_, ?_⟩
  · by_cases h : (i + j) % 2 = 0 <;> by_cases h2 : rows m = 1 <;> simp [cofactor, h, h2]
  · norm_num [determinant, detFuel, minor, entry, rows, columns, List.range_succ,
      List.eraseIdx]
  · norm_num [determinant, detFuel, minor, entry, rows, columns, List.range_succ,
      List.eraseIdx]

/-- When `b` is well-formed and the conformability check passes, `mat_mul`
either aborts or returns a present product. -/
theorem mat_mul_cases (a b : Mat F) (hwf : wellFormed b) (hab : rows a = columns b) :
    mat_mul a b = none ∨ ∃ p, mat_mul a b = some (some p) := by
  rw [mat_mul, if_neg (not_not_intro hwf), if_neg (not_not_intro hab)]
  by_cases h3 : ∃ r ∈ b, r.length < rows b
  · rw [if_pos h3]
    exact Or.inl rfl
  · rw [if_neg h3]
    by_cases h4 : 0 < rows a ∧ rows b < columns b
    · rw [if_pos h4]
      exact Or.inl rfl
    · rw [if_neg h4]
      exact Or.inr ⟨_, rfl⟩

/-- C6 counterexample: `A = [[1],[2]]`, `B = [[1,2],[3,4],[5,6]]` pass the
conformability check (`rows A = columns B = 2`), yet `mat_mul` does not
return the claimed product: `transpose B` reads `B[0][2]` out of range
(every row of `B` is shorter than `rows B = 3`) and the source panics. -/
theorem mat_mul_matched_nonsquare_panics_cex :
    rows ([[1], [2]] : Mat ℚ) = columns ([[1, 2], [3, 4], [5, 6]] : Mat ℚ) ∧
    wellFormed ([[1, 2], [3, 4], [5, 6]] : Mat ℚ) ∧
    mat_mul ([[1], [2]] : Mat ℚ) [[1, 2], [3, 4], [5, 6]] = none :=
  ⟨by decide, by decide, by decide⟩

/-- C6 (amended): for well-formed `b` (the source's `columns` panics on
ragged input): `mat_mul a b` returns the graceful absent value exactly when
`rows a ≠ columns b`; when the check passes but `b` is nonempty and not
square, the computation aborts on an out-of-range index instead of
returning anything; and for square `b` it returns the matrix whose `(i, j)`
entry is the dot product of row `i` of `a` with column `j` of `b`, computed
via the transpose of `b`. -/
theorem mat_mul_conformability_or_panic :
    ∀ (F : Type) [Field F] [DecidableEq F] (a b : Mat F),
      wellFormed b →
      (mat_mul a b = some none ↔ rows a ≠ columns b) ∧
      (rows a = columns b → b ≠ [] → rows b ≠ columns b → mat_mul a b = none) ∧
      (is_square b = true → rows a = columns b →
        ∃ p, mat_mul a b = some (some p) ∧ p.length = rows a ∧
          ∀ i j, i < rows a → j < columns b →
            entry p i j = vec_mul (a.getD i []) (b.map (fun r => r.getD j 0))) := by
  intro F _ _ a b hwf
  refine ⟨⟨?_, ?_⟩, ?_, ?_⟩
  · intro h
    by_contra hne
    rcases mat_mul_cases a b hwf hne with hc | ⟨p, hc⟩
    · rw [hc] at h
      cases h
    · rw [hc] at h
      exact Option.noConfusion (Option.some.inj h)
  · intro h
    rw [mat_mul, if_neg (not_not_intro hwf), if_pos h]
  · intro hab hbne hnsq
    rw [mat_mul, if_neg (not_not_intro hwf), if_neg (not_not_intro hab)]
    rcases Nat.lt_or_ge (columns b) (rows b) with hlt | hge
    · obtain ⟨r, hr⟩ := List.exists_mem_of_ne_nil b hbne
      rw [if_pos ⟨r, hr, by rw [hwf r hr]; exact hlt⟩]
    · have hlt2 : rows b < columns b := lt_of_le_of_ne hge hnsq
      rw [if_neg (by rintro ⟨r, hr, h⟩; rw [hwf r hr] at h; omega),
        if_pos ⟨by omega, hlt2⟩]
  · intro hsq hdim
    have hsq' : rows b = columns b := by simpa [is_square] using hsq
    have hw : Wd (rows b) b := fun r hr => by rw [hwf r hr, hsq']
    refine ⟨(List.range (rows a)).map (fun i => (List.range (columns b)).map
        (fun j => vec_mul (a.getD i []) ((transpose b).getD j []))), ?_, by simp, ?_⟩
    · rw [mat_mul, if_neg (not_not_intro hwf), if_neg (not_not_intro hdim),
        if_neg (by rintro ⟨r, hr, h⟩; rw [hw r hr] at h; omega),
        if_neg (by rintro ⟨-, h⟩; omega)]
    · intro i j hi hj
      have hjb : j < rows b := by rw [hsq']; exact hj
      rw [entry_tab (fun i j => vec_mul (a.getD i []) ((transpose b).getD j [])) hi hj]
      have hcol : (transpose b).getD j [] = b.map (fun r => r.getD j 0) := by
        rw [getD_transpose b hjb]
        apply eq_of_getD 0
        · simp [rows]
        · intro k
          rcases Nat.lt_or_ge k (rows b) with hk | hk
          · rw [getD_map_range _ _ hk, getD_map_lt _ hk []]
            rfl
          · rw [getD_map_range_ge _ _ hk, getD_ge _ _ (by simpa using hk)]
      rw [hcol]

theorem mat_mul_conformability_or_panic_witness :
    wellFormed ([[5, 6], [7, 8]] : Mat (ZMod 11)) ∧
    ((mat_mul ([[1, 2], [3, 4]] : Mat (ZMod 11)) [[5, 6], [7, 8]] = some none ↔
        rows ([[1, 2], [3, 4]] : Mat (ZMod 11)) ≠ columns [[5, 6], [7, 8]]) ∧
      (rows ([[1, 2], [3, 4]] : Mat (ZMod 11)) = columns [[5, 6], [7, 8]] →
        ([[5, 6], [7, 8]] : Mat (ZMod 11)) ≠ [] →
        rows ([[5, 6], [7, 8]] : Mat (ZMod 11)) ≠ columns [[5, 6], [7, 8]] →
        mat_mul ([[1, 2], [3, 4]] : Mat (ZMod 11)) [[5, 6], [7, 8]] = none) ∧
      (is_square ([[5, 6], [7, 8]] : Mat (ZMod 11)) = true →
        rows ([[1, 2], [3, 4]] : Mat (ZMod 11)) = columns [[5, 6], [7, 8]] →
        ∃ p, mat_mul ([[1, 2], [3, 4]] : Mat (ZMod 11)) [[5, 6], [7, 8]] = some (some p) ∧
          p.length = rows ([[1, 2], [3, 4]] : Mat (ZMod 11)) ∧
          ∀ i j, i < rows ([[1, 2], [3, 4]] : Mat (ZMod 11)) →
            j < columns ([[5, 6], [7, 8]] : Mat (ZMod 11)) →
            entry p i j = vec_mul (([[1, 2], [3, 4]] : Mat (ZMod 11)).getD i [])
              (([[5, 6], [7, 8]] : Mat (ZMod 11)).map (fun r => r.getD j 0)))) :=
  ⟨by decide,
    mat_mul_conformability_or_panic (ZMod 11) [[1, 2], [3, 4]] [[5, 6], [7, 8]] (by decide)⟩
/-! ## Bridge to Mathlib matrices: determinant, cofactor, adjugate -/

theorem headD_eq_getD {α : Type} (l : List α) (d : α) : l.headD d = l.getD 0 d := by
  rw [List.headD_eq_head?, List.head?_eq_getElem?, List.getD_eq_getElem?_getD]

theorem Wd_minor {w : Nat} {m : Mat F} (hw : Wd w m) {j : Nat} (hj : j < w) (i : Nat) :
    Wd (w - 1) (minor m i j) := by
  intro r hr
  simp only [minor, List.mem_map] at hr
  obtain ⟨row, hrow, rfl⟩ := hr
  rw [List.length_eraseIdx, hw row (List.mem_of_mem_eraseIdx hrow)]
  rw [if_pos hj]

theorem length_minor {m : Mat F} {i : Nat} (hi : i < m.length) (j : Nat) :
    (minor m i j).length = m.length - 1 := by
  simp [minor, List.length_eraseIdx, hi]

theorem val_succAbove {n : Nat} (p : Fin (n + 1)) (b : Fin n) :
    (p.succAbove b).val = if b.val < p.val then b.val else b.val + 1 := by
  rw [Fin.succAbove]
  by_cases h : b.castSucc < p
  · rw [if_pos h, if_pos (by simpa [Fin.lt_def] using h), Fin.coe_castSucc]
  · rw [if_neg h, if_neg (by simpa [Fin.lt_def] using h), Fin.val_succ]

theorem sign_pow (x : F) (k : Nat) :
    (if k % 2 = 0 then x else -x) = (-1) ^ k * x := by
  rcases Nat.even_or_odd k with h | h
  · rw [if_pos (Nat.even_iff.mp h), h.neg_one_pow, one_mul]
  · rw [if_neg (by rw [Nat.odd_iff.mp h]; omega), h.neg_one_pow, neg_one_mul]

/-- The source `determinant` computes the mathematical determinant of any
nonempty square well-formed matrix. -/
theorem determinant_eq_det : ∀ (n : Nat) (m : Mat F), m.length = n + 1 → Wd (n + 1) m →
    determinant m = (toMatrix m (n + 1)).det := by
  intro n
  induction n with
  | zero =>
    intro m hl hw
    have hne : m ≠ [] := by intro h; rw [h] at hl; cases hl
    rw [determinant_expansion, Matrix.det_fin_one, columns_eq_of_Wd hw hne,
      Finset.sum_range_one, show cofactor m 0 0 = 1 by simp [cofactor, rows, hl], mul_one]
    rfl
  | succ n ih =>
    intro m hl hw
    have hne : m ≠ [] := by intro h; rw [h] at hl; cases hl
    rw [determinant_expansion, Matrix.det_succ_row_zero, columns_eq_of_Wd hw hne,
      ← Fin.sum_univ_eq_sum_range (fun j => entry m 0 j * cofactor m 0 j) (n + 2)]
    refine Finset.sum_congr rfl (fun j _ => ?_)
    have hrows1 : rows m ≠ 1 := by rw [rows, hl]; omega
    have hminor : determinant (minor m 0 j.val) = (toMatrix (minor m 0 j.val) (n + 1)).det := by
      apply ih
      · rw [length_minor (by omega) j.val, hl]
        omega
      · have := Wd_minor hw (show j.val < n + 2 from j.isLt) 0
        simpa using this
    have hsub : toMatrix (minor m 0 j.val) (n + 1)
        = (toMatrix m (n + 2)).submatrix Fin.succ j.succAbove := by
      ext a b
      show entry (minor m 0 j.val) a.val b.val = entry m (Fin.succ a).val (j.succAbove b).val
      rw [entry_minor, val_succAbove, Fin.val_succ]
      simp
    have hcof : cofactor m 0 j.val = (-1 : F) ^ j.val * determinant (minor m 0 j.val) := by
      rw [cofactor]
      simp only [if_neg hrows1, Nat.zero_add]
      exact sign_pow _ j.val
    rw [hcof, hminor, hsub]
    show entry m 0 j.val * ((-1) ^ j.val * _) = (-1) ^ (j.val) * entry m 0 j.val * _
    ring

/-- Each source cofactor is an entry of the Mathlib adjugate (transposed). -/
theorem cofactor_eq_adjugate : ∀ (n : Nat) (m : Mat F), m.length = n + 1 → Wd (n + 1) m →
    ∀ (i j : Fin (n + 1)), cofactor m i.val j.val = (toMatrix m (n + 1)).adjugate j i := by
  intro n m hl hw i j
  rw [Matrix.adjugate_fin_succ_eq_det_submatrix]
  cases n with
  | zero =>
    have : i = 0 := Fin.ext (by have := i.isLt; omega)
    have hj0 : j = 0 := Fin.ext (by have := j.isLt; omega)
    subst this
    subst hj0
    simp [cofactor, rows, hl, Matrix.det_fin_zero]
  | succ n =>
    have hrows1 : rows m ≠ 1 := by rw [rows, hl]; omega
    have hiv : i.val < m.length := by rw [hl]; exact i.isLt
    have hminor : determinant (minor m i.val j.val)
        = (toMatrix (minor m i.val j.val) (n + 1)).det := by
      apply determinant_eq_det
      · rw [length_minor hiv j.val, hl]
        omega
      · have := Wd_minor hw (show j.val < n + 2 from j.isLt) i.val
        simpa using this
    have hsub : toMatrix (minor m i.val j.val) (n + 1)
        = (toMatrix m (n + 2)).submatrix i.succAbove j.succAbove := by
      ext a b
      show entry (minor m i.val j.val) a.val b.val
        = entry m (i.succAbove a).val (j.succAbove b).val
      rw [entry_minor, val_succAbove, val_succAbove]
    have hcof : cofactor m i.val j.val
        = (-1 : F) ^ (i.val + j.val) * determinant (minor m i.val j.val) := by
      rw [cofactor]
      simp only [if_neg hrows1]
      exact sign_pow _ (i.val + j.val)
    rw [hcof, hminor, hsub]

/-- On two nonempty arguments the first-row fold does not panic and computes
the dot product of the head rows. -/
theorem dwcm_eq_some (m c : Mat F) (hm : m ≠ []) (hc : c ≠ []) :
    determinant_with_cofactor_matrix m c = some (vec_mul (m.headD []) (c.headD [])) := by
  cases m with
  | nil => exact absurd rfl hm
  | cons mr mt =>
    cases c with
    | nil => exact absurd rfl hc
    | cons cr ct => rfl

/-- The optimised first-row expansion with a precomputed cofactor matrix
does not panic on nonempty square well-formed matrices and agrees with
`determinant`. -/
theorem dwcm_eq_determinant {n : Nat} {m : Mat F} (hl : m.length = n + 1)
    (hw : Wd (n + 1) m) :
    determinant_with_cofactor_matrix m (cofactor_matrix m) = some (determinant m) := by
  have hr : rows m = n + 1 := hl
  have hne : m ≠ [] := by intro h; rw [h] at hl; cases hl
  have hcne : cofactor_matrix m ≠ [] := by
    intro h
    have h2 := congrArg List.length h
    simp only [cofactor_matrix, List.length_map, List.length_range, List.length_nil] at h2
    rw [hr] at h2
    cases h2
  rw [dwcm_eq_some m (cofactor_matrix m) hne hcne]
  congr 1
  have hrow0 : (cofactor_matrix m).headD []
      = (List.range (rows m)).map (fun j => cofactor m 0 j) := by
    rw [headD_eq_getD, cofactor_matrix, getD_map_range _ _ (by rw [hr]; omega)]
  have hm0 : (m.headD []).length = n + 1 := by
    rw [headD_eq_getD]
    exact length_getD_of_Wd hw (by omega)
  rw [hrow0, vec_mul_eq_sum, determinant_expansion, columns_eq_of_Wd hw hne]
  rw [hm0, List.length_map, List.length_range, hr, Nat.min_self]
  refine Finset.sum_congr rfl (fun k hk => ?_)
  rw [Finset.mem_range] at hk
  rw [getD_map_range _ _ (by omega), headD_eq_getD]
  rfl
/-! ## Cofactor-adjugate inversion is correct -/

theorem length_scalar_mul (s : F) (m : Mat F) : (scalar_mul s m).length = m.length := by
  simp [scalar_mul]

theorem Wd_scalar_mul {n : Nat} {m : Mat F} (hw : Wd n m) (s : F) : Wd n (scalar_mul s m) := by
  intro r hr
  simp only [scalar_mul, List.mem_map] at hr
  obtain ⟨row, hrow, rfl⟩ := hr
  simp [hw row hrow]

theorem length_cofactor_matrix (m : Mat F) : (cofactor_matrix m).length = rows m := by
  simp [cofactor_matrix]

theorem entry_cofactor_matrix {m : Mat F} {i j : Nat} (hi : i < rows m) (hj : j < rows m) :
    entry (cofactor_matrix m) i j = cofactor m i j :=
  entry_tab (fun a b => cofactor m a b) hi hj

/-- On nonempty square well-formed matrices none of the panic branches of
`invert_with_cofactors` fires and it reduces to the determinant test. -/
theorem invert_with_cofactors_unfold {n : Nat} {m : Mat F} (hl : m.length = n + 1)
    (hw : Wd (n + 1) m) :
    invert_with_cofactors m
      = if determinant m = 0 then some none
        else some (some (scalar_mul (determinant m)⁻¹ (transpose (cofactor_matrix m)))) := by
  have hne : m ≠ [] := by intro h; rw [h] at hl; cases hl
  have hcols : columns m = n + 1 := columns_eq_of_Wd hw hne
  have hwf : wellFormed m := (wellFormed_iff_Wd m).mpr (by rw [hcols]; exact hw)
  have hsqb : is_square m = true := by
    rw [is_square, decide_eq_true_eq, show rows m = n + 1 from hl, hcols]
  rw [invert_with_cofactors, if_neg (not_not_intro hwf), if_neg (not_not_intro hsqb),
    dwcm_eq_determinant hl hw]

theorem invert_with_cofactors_eq {n : Nat} {m : Mat F} (hl : m.length = n + 1)
    (hw : Wd (n + 1) m) (hdet : determinant m ≠ 0) :
    ∃ s, invert_with_cofactors m = some (some s) ∧ s.length = n + 1 ∧ Wd (n + 1) s ∧
      toMatrix s (n + 1) = (determinant m)⁻¹ • (toMatrix m (n + 1)).adjugate := by
  have hr : rows m = n + 1 := hl
  have hrc : rows (cofactor_matrix m) = n + 1 := by
    rw [rows, length_cofactor_matrix, hr]
  refine ⟨_, by rw [invert_with_cofactors_unfold hl hw, if_neg hdet], ?_, ?_, ?_⟩
  · rw [length_scalar_mul, length_transpose, hrc]
  · have h1 : Wd (n + 1) (transpose (cofactor_matrix m)) := by
      have := Wd_transpose (cofactor_matrix m)
      rwa [hrc] at this
    exact Wd_scalar_mul h1 _
  · ext i j
    show entry (scalar_mul _ (transpose (cofactor_matrix m))) i.val j.val = _
    rw [entry_scalar_mul,
      entry_transpose (cofactor_matrix m) (by rw [hrc]; exact i.isLt)
        (by rw [hrc]; exact j.isLt),
      entry_cofactor_matrix (by rw [hr]; exact j.isLt) (by rw [hr]; exact i.isLt),
      cofactor_eq_adjugate n m hl hw j i, Matrix.smul_apply, smul_eq_mul]

/-- Entries of a successful `mat_mul` are entries of the Mathlib product. -/
theorem mat_mul_entry {n : Nat} {a b : Mat F} (hla : a.length = n + 1) (hwa : Wd (n + 1) a)
    (hlb : b.length = n + 1) (hwb : Wd (n + 1) b) :
    ∃ p, mat_mul a b = some (some p) ∧ p.length = n + 1 ∧ Wd (n + 1) p ∧
      ∀ i j : Fin (n + 1), entry p i.val j.val
        = (toMatrix a (n + 1) * toMatrix b (n + 1)) i j := by
  have hbne : b ≠ [] := by intro h; rw [h] at hlb; cases hlb
  have hcb : columns b = n + 1 := columns_eq_of_Wd hwb hbne
  have hra : rows a = n + 1 := hla
  have hrb : rows b = n + 1 := hlb
  have hwfb : wellFormed b := (wellFormed_iff_Wd b).mpr (by rw [hcb]; exact hwb)
  refine ⟨_, by rw [mat_mul, if_neg (not_not_intro hwfb),
      if_neg (not_not_intro (show rows a = columns b by rw [hra, hcb])),
      if_neg (by rintro ⟨r, hr, h⟩; rw [hwb r hr, hrb] at h; omega),
      if_neg (by rintro ⟨-, h⟩; rw [hrb, hcb] at h; omega)],
    by simp [hra], ?_, ?_⟩
  · simp only [hcb]
    exact Wd_tab _
  · intro i j
    rw [entry_tab (fun i j => vec_mul (a.getD i []) ((transpose b).getD j []))
      (by rw [hra]; exact i.isLt) (by rw [hcb]; exact j.isLt)]
    rw [getD_transpose b (by rw [hrb]; exact j.isLt), vec_mul_eq_sum,
      length_getD_of_Wd hwa (by rw [hla]; exact i.isLt), List.length_map,
      List.length_range, hrb, Nat.min_self, Matrix.mul_apply]
    simp only [toMatrix, Matrix.of_apply]
    rw [Fin.sum_univ_eq_sum_range (fun k => entry a i.val k * entry b k j.val) (n + 1)]
    refine Finset.sum_congr rfl (fun k hk => ?_)
    rw [Finset.mem_range] at hk
    rw [getD_map_range _ _ hk]
    rfl

theorem is_identity_of_entries {n : Nat} {p : Mat F} (hl : p.length = n) (hw : Wd n p)
    (h : ∀ i j, i < n → j < n → entry p i j = if i = j then (1 : F) else 0) :
    is_identity p = true := by
  rw [is_identity_iff]
  intro i hi j hj
  refine h i j (hl ▸ hi) ?_
  cases p with
  | nil => exact absurd hj (by simp [columns])
  | cons r t => exact (columns_eq_of_Wd hw (by simp)) ▸ hj

/-- If the abstractions multiply to 1, `mat_mul` succeeds and `is_identity`
accepts the product. -/
theorem mat_mul_identity_of {n : Nat} {a b : Mat F} (hla : a.length = n + 1)
    (hwa : Wd (n + 1) a) (hlb : b.length = n + 1) (hwb : Wd (n + 1) b)
    (hmul : toMatrix a (n + 1) * toMatrix b (n + 1) = 1) :
    ∃ p, mat_mul a b = some (some p) ∧ is_identity p = true := by
  obtain ⟨p, hp, hlp, hwp, hent⟩ := mat_mul_entry hla hwa hlb hwb
  refine ⟨p, hp, is_identity_of_entries hlp hwp ?_⟩
  intro i j hi hj
  have := hent ⟨i, hi⟩ ⟨j, hj⟩
  rw [hmul, Matrix.one_apply] at this
  simpa [Fin.ext_iff] using this
theorem invert_with_cofactors_inverse {n : Nat} {m s : Mat F} (hl : m.length = n + 1)
    (hw : Wd (n + 1) m) (hs : invert_with_cofactors m = some (some s)) :
    determinant m ≠ 0 ∧ s.length = n + 1 ∧ Wd (n + 1) s ∧
      toMatrix m (n + 1) * toMatrix s (n + 1) = 1 ∧
      toMatrix s (n + 1) * toMatrix m (n + 1) = 1 := by
  have hdet : determinant m ≠ 0 := by
    intro h0
    rw [invert_with_cofactors_unfold hl hw, if_pos h0] at hs
    exact Option.noConfusion (Option.some.inj hs)
  obtain ⟨s0, hs0, hls, hws, htm⟩ := invert_with_cofactors_eq hl hw hdet
  have hss : s0 = s := by
    rw [hs0] at hs
    exact Option.some.inj (Option.some.inj hs)
  subst hss
  have hdetA : (toMatrix m (n + 1)).det = determinant m := (determinant_eq_det n m hl hw).symm
  refine ⟨hdet, hls, hws, ?_, ?_⟩
  · rw [htm, Matrix.mul_smul, Matrix.mul_adjugate, hdetA, smul_smul,
      inv_mul_cancel₀ hdet, one_smul]
  · rw [htm, Matrix.smul_mul, Matrix.adjugate_mul, hdetA, smul_smul,
      inv_mul_cancel₀ hdet, one_smul]

/-- C2 counterexample: the 0×0 matrix is square and singular (its
`determinant` is 0 and `is_invertible` rejects it), yet
`invert_with_cofactors` does not return the graceful absent value the claim
requires: it panics reading `matrix[0]` inside
`determinant_with_cofactor_matrix`. -/
theorem invert_with_cofactors_empty_panics_cex :
    is_square ([] : Mat ℚ) = true ∧ determinant ([] : Mat ℚ) = 0 ∧
    is_invertible ([] : Mat ℚ) = false ∧
    invert_with_cofactors ([] : Mat ℚ) = none := by
  refine ⟨by decide, rfl, by decide, rfl⟩

/-- C2 (amended): for every NONEMPTY square well-formed matrix,
`invert_with_cofactors` never aborts; it returns the graceful absent value
exactly when the matrix is singular (determinant zero, which is also
exactly when `is_invertible` is false); and whenever it returns a present
value, that value is a genuine two-sided matrix inverse. The empty matrix
is excluded: there the source panics at `matrix[0]` instead of returning
the absent value. -/
theorem invert_with_cofactors_graceful_iff_singular :
    ∀ (F : Type) [Field F] [DecidableEq F] (m : Mat F),
      wellFormed m → is_square m = true → 0 < rows m →
      invert_with_cofactors m ≠ none ∧
      (invert_with_cofactors m = some none ↔ determinant m = 0) ∧
      (is_invertible m = false ↔ determinant m = 0) ∧
      ∀ s, invert_with_cofactors m = some (some s) →
        (∃ p, mat_mul m s = some (some p) ∧ is_identity p = true) ∧
        (∃ q, mat_mul s m = some (some q) ∧ is_identity q = true) := by
  intro F _ _ m hwf hsq hpos
  obtain ⟨n, hl⟩ : ∃ n, m.length = n + 1 := ⟨m.length - 1, by
    have h0 : 0 < m.length := hpos
    omega⟩
  have hsq' : rows m = columns m := by simpa [is_square] using hsq
  have hw : Wd (n + 1) m := fun r hr => by rw [hwf r hr, ← hsq']; exact hl
  refine ⟨?_, ⟨?_, ?_⟩, ?_, ?_⟩
  · rw [invert_with_cofactors_unfold hl hw]
    by_cases h0 : determinant m = 0
    · rw [if_pos h0]
      exact Option.noConfusion
    · rw [if_neg h0]
      exact Option.noConfusion
  · intro h
    by_contra hne
    obtain ⟨s, hs, _⟩ := invert_with_cofactors_eq hl hw hne
    rw [hs] at h
    exact Option.noConfusion (Option.some.inj h)
  · intro h
    rw [invert_with_cofactors_unfold hl hw, if_pos h]
  · constructor
    · intro h
      by_contra hne
      rw [is_invertible, hsq, Bool.true_and, decide_eq_false_iff_not, not_not] at h
      exact hne h
    · intro h
      rw [is_invertible, hsq, Bool.true_and, decide_eq_false_iff_not, not_not]
      exact h
  · intro s hs
    obtain ⟨hdet, hls, hws, hAS, hSA⟩ := invert_with_cofactors_inverse hl hw hs
    exact ⟨mat_mul_identity_of hl hw hls hws hAS, mat_mul_identity_of hls hws hl hw hSA⟩

theorem invert_with_cofactors_graceful_iff_singular_witness :
    wellFormed ([[1, 2], [3, 8]] : Mat ℚ) ∧
    is_square ([[1, 2], [3, 8]] : Mat ℚ) = true ∧
    0 < rows ([[1, 2], [3, 8]] : Mat ℚ) ∧
    (invert_with_cofactors ([[1, 2], [3, 8]] : Mat ℚ) ≠ none ∧
      (invert_with_cofactors ([[1, 2], [3, 8]] : Mat ℚ) = some none ↔
        determinant ([[1, 2], [3, 8]] : Mat ℚ) = 0) ∧
      (is_invertible ([[1, 2], [3, 8]] : Mat ℚ) = false ↔
        determinant ([[1, 2], [3, 8]] : Mat ℚ) = 0) ∧
      ∀ s, invert_with_cofactors ([[1, 2], [3, 8]] : Mat ℚ) = some (some s) →
        (∃ p, mat_mul ([[1, 2], [3, 8]] : Mat ℚ) s = some (some p) ∧
          is_identity p = true) ∧
        (∃ q, mat_mul s ([[1, 2], [3, 8]] : Mat ℚ) = some (some q) ∧
          is_identity q = true)) :=
  ⟨by decide, by decide, by decide,
    invert_with_cofactors_graceful_iff_singular ℚ [[1, 2], [3, 8]]
      (by decide) (by decide) (by decide)⟩
/-! ## The elimination pipeline: shadow tracking and correctness -/

theorem getD_append_ite {α : Type} (a b : List α) (r : Nat) (d : α) :
    (a ++ b).getD r d = if r < a.length then a.getD r d else b.getD (r - a.length) d := by
  by_cases h : r < a.length
  · rw [if_pos h, List.getD_append _ _ _ _ h]
  · rw [if_neg h, List.getD_append_right _ _ _ _ (by omega)]

theorem entry_append (a b : Mat F) (r s : Nat) :
    entry (a ++ b) r s = if r < a.length then entry a r s else entry b (r - a.length) s := by
  show ((a ++ b).getD r []).getD s 0 = _
  rw [getD_append_ite]
  by_cases h : r < a.length <;> simp only [if_pos, if_neg, h, ite_true, ite_false] <;> rfl

theorem entry_cons_succ (r : List F) (t : Mat F) (i j : Nat) :
    entry (r :: t) (i + 1) j = entry t i j := rfl

theorem getD_drop_one {α : Type} (l : List α) (i : Nat) (d : α) :
    (l.drop 1).getD i d = l.getD (i + 1) d := by
  rw [List.getD_eq_getElem?_getD, List.getElem?_drop, Nat.add_comm 1 i,
    List.getD_eq_getElem?_getD]

theorem entry_drop_one (l : Mat F) (i j : Nat) : entry (l.drop 1) i j = entry l (i + 1) j := by
  show ((l.drop 1).getD i []).getD j 0 = (l.getD (i + 1) []).getD j 0
  rw [getD_drop_one]

/-- What a successful `eliminate` with pivot row 0 does, entry by entry. -/
theorem eliminate_spec {n : Nat} {matrix shadow : Mat F} {column : Nat}
    {curr' shadow' : Mat F}
    (hL : 0 < matrix.length) (hsh : shadow.length = matrix.length)
    (hwm : Wd n matrix) (hws : Wd n shadow)
    (h : eliminate matrix column 0 shadow = some (curr', shadow')) :
    entry matrix 0 column ≠ 0 ∧
    curr'.length = matrix.length ∧ shadow'.length = matrix.length ∧
    Wd n curr' ∧ Wd n shadow' ∧
    (∀ j, entry curr' 0 j = entry matrix 0 j) ∧
    (∀ j, entry shadow' 0 j = entry shadow 0 j) ∧
    (∀ i j, 1 ≤ i → i < matrix.length →
      entry curr' i j = entry matrix i j
        - entry matrix i column * (entry matrix 0 column)⁻¹ * entry matrix 0 j ∧
      entry shadow' i j = entry shadow i j
        - entry matrix i column * (entry matrix 0 column)⁻¹ * entry shadow 0 j) := by
  rw [eliminate] at h
  set pv := (matrix.getD 0 []).getD column 0 with hpv
  have hpve : entry matrix 0 column = pv := rfl
  by_cases h0 : pv = 0
  · rw [if_pos h0] at h
    cases h
  rw [if_neg h0] at h
  simp only [Option.some.injEq, Prod.mk.injEq] at h
  obtain ⟨hc, hs⟩ := h
  have hlen0 : (matrix.getD 0 []).length = n := length_getD_of_Wd hwm hL
  have hcl : curr'.length = matrix.length := by
    rw [← hc]
    simp only [List.length_cons, List.length_map, List.length_eraseIdx, if_pos hL]
    omega
  have hsl : shadow'.length = matrix.length := by
    rw [← hs]
    simp [hsh]
  have hcurr : ∀ i j, 1 ≤ i → i < matrix.length →
      entry curr' i j = entry matrix i j
        - entry matrix i column * pv⁻¹ * entry matrix 0 j := by
    intro i j h1 h2
    obtain ⟨i', rfl⟩ : ∃ i', i = i' + 1 := ⟨i - 1, by omega⟩
    rw [← hc, entry_cons_succ]
    have hi' : i' < (matrix.eraseIdx 0).length := by
      rw [List.length_eraseIdx, if_pos hL]
      omega
    show entry (List.map _ (matrix.eraseIdx 0)) i' j = _
    have hrow : (matrix.eraseIdx 0).getD i' [] = matrix.getD (i' + 1) [] := by
      rw [getD_eraseIdx_getD]
      simp
    have := getD_map_lt (fun row =>
      let val := row.getD column 0
      if val = 0 then row
      else vec_sub row (scalar_vec_mul (val * pv⁻¹) (matrix.getD 0 []))) hi' [] []
    rw [entry, this, hrow]
    set row := matrix.getD (i' + 1) [] with hrdef
    have hrl : row.length = n := length_getD_of_Wd hwm h2
    have hval : row.getD column 0 = entry matrix (i' + 1) column := rfl
    by_cases hz : row.getD column 0 = 0
    · rw [if_pos hz]
      show entry matrix (i' + 1) j = _
      rw [← hval, hz]
      ring
    · rw [if_neg hz]
      rw [getD_vec_sub (by rw [length_scalar_vec_mul, hrl, hlen0]),
        getD_scalar_vec_mul]
      show row.getD j 0 - row.getD column 0 * pv⁻¹ * (matrix.getD 0 []).getD j 0 = _
      rw [hval]
      rfl
  have hshadow : ∀ i j, 1 ≤ i → i < matrix.length →
      entry shadow' i j = entry shadow i j
        - entry matrix i column * pv⁻¹ * entry shadow 0 j := by
    intro i j h1 h2
    rw [← hs, entry]
    rw [getD_map_range _ _ (by omega : i < shadow.length)]
    rw [if_neg (by omega : ¬ i = 0)]
    set v := (matrix.getD i []).getD column 0 with hvdef
    have hv : entry matrix i column = v := rfl
    by_cases hz : v = 0
    · rw [if_pos hz]
      show entry shadow i j = _
      rw [hv, hz]
      ring
    · rw [if_neg hz]
      have hsl0 : (shadow.getD 0 []).length = n :=
        length_getD_of_Wd hws (by omega)
      have hsli : (shadow.getD i []).length = n :=
        length_getD_of_Wd hws (by omega)
      rw [getD_vec_sub (by rw [length_scalar_vec_mul, hsli, hsl0]), getD_scalar_vec_mul]
      rfl
  refine ⟨by rw [hpve]; exact h0, hcl, hsl, ?_, ?_, ?_, ?_, fun i j h1 h2 =>
    ⟨hcurr i j h1 h2, hshadow i j h1 h2⟩⟩
  · -- Wd curr'
    rw [← hc]
    intro r hr
    rcases List.mem_cons.mp hr with rfl | hr
    · exact hlen0
    · simp only [List.mem_map] at hr
      obtain ⟨row, hrow, rfl⟩ := hr
      have hrl : row.length = n := hwm row (List.mem_of_mem_eraseIdx hrow)
      show (if row.getD column 0 = 0 then row
        else vec_sub row (scalar_vec_mul (row.getD column 0 * pv⁻¹)
          (matrix.getD 0 []))).length = n
      by_cases hz : row.getD column 0 = 0
      · rw [if_pos hz]
        exact hrl
      · rw [if_neg hz, length_vec_sub, length_scalar_vec_mul, hrl, hlen0, Nat.min_self]
  · -- Wd shadow'
    rw [← hs]
    intro r hr
    simp only [List.mem_map, List.mem_range] at hr
    obtain ⟨i, hi, rfl⟩ := hr
    have hsli : (shadow.getD i []).length = n := length_getD_of_Wd hws hi
    show (if i = 0 then shadow.getD i []
      else if (matrix.getD i []).getD column 0 = 0 then shadow.getD i []
      else vec_sub (shadow.getD i []) (scalar_vec_mul ((matrix.getD i []).getD column 0 * pv⁻¹)
        (shadow.getD 0 []))).length = n
    by_cases h0i : i = 0
    · rw [if_pos h0i]
      exact hsli
    · rw [if_neg h0i]
      by_cases hz : (matrix.getD i []).getD column 0 = 0
      · rw [if_pos hz]
        exact hsli
      · rw [if_neg hz, length_vec_sub, length_scalar_vec_mul, hsli,
          length_getD_of_Wd hws (by omega), Nat.min_self]
  · intro j
    rw [← hc]
    rfl
  · intro j
    rw [← hs, entry, getD_map_range _ _ (by omega : 0 < shadow.length), if_pos rfl]
    rfl
theorem sum_sub_smul (N : Nat) (a b g : Nat → F) (f : F) :
    ∑ k in Finset.range N, (a k - f * b k) * g k
      = (∑ k in Finset.range N, a k * g k) - f * ∑ k in Finset.range N, b k * g k := by
  rw [Finset.mul_sum, ← Finset.sum_sub_distrib]
  refine Finset.sum_congr rfl (fun k _ => by ring)

theorem Wd_append {w : Nat} {a b : Mat F} (ha : Wd w a) (hb : Wd w b) : Wd w (a ++ b) := by
  intro r hr
  rcases List.mem_append.mp hr with h | h
  · exact ha r h
  · exact hb r h

/-- Subtracting multiples of a fixed row `p` from rows strictly below it
leaves the determinant unchanged. -/
theorem det_row_sub {n : Nat} (A B : Matrix (Fin n) (Fin n) F) (p : Fin n) (c : Fin n → F)
    (hcp : c p = 0) (htri : ∀ r, r < p → c r = 0)
    (hB : ∀ r s, B r s = A r s - c r * A p s) : B.det = A.det := by
  set E : Matrix (Fin n) (Fin n) F :=
    Matrix.of (fun r s => (if r = s then (1 : F) else 0) - c r * (if s = p then 1 else 0))
    with hE
  have hBE : B = E * A := by
    ext r s
    rw [Matrix.mul_apply]
    have hsum : ∀ k : Fin n, E r k * A k s
        = (if r = k then (1 : F) else 0) * A k s - (if k = p then c r * A k s else 0) := by
      intro k
      rw [hE, Matrix.of_apply, sub_mul]
      congr 1
      by_cases hkp : k = p
      · rw [if_pos hkp, if_pos hkp, mul_one]
      · rw [if_neg hkp, if_neg hkp, mul_zero, zero_mul]
    rw [Finset.sum_congr rfl (fun k _ => hsum k), Finset.sum_sub_distrib]
    have h1 : ∑ k : Fin n, (if r = k then (1 : F) else 0) * A k s = A r s := by
      simp [ite_mul]
    have h2 : ∑ k : Fin n, (if k = p then c r * A k s else 0) = c r * A p s := by
      simp
    rw [h1, h2, hB]
  have hdetE : E.det = 1 := by
    have htriE : E.BlockTriangular OrderDual.toDual := by
      intro i j hij
      have hij' : i < j := hij
      rw [hE, Matrix.of_apply, if_neg (by intro h; rw [h] at hij'; exact lt_irrefl _ hij')]
      by_cases hjp : j = p
      · rw [if_pos hjp, htri i (hjp ▸ hij')]
        ring
      · rw [if_neg hjp]
        ring
    rw [Matrix.det_of_lowerTriangular E htriE]
    refine Finset.prod_eq_one (fun i _ => ?_)
    rw [hE, Matrix.of_apply, if_pos rfl]
    by_cases hip : i = p
    · rw [if_pos hip, hip, hcp]
      ring
    · rw [if_neg hip]
      ring
  rw [hBE, Matrix.det_mul, hdetE, one_mul]
theorem Wd_drop {w : Nat} {l : Mat F} (h : Wd w l) (k : Nat) : Wd w (l.drop k) :=
  fun r hr => h r (List.drop_subset _ _ hr)

theorem utLoop_step {f : Nat} {curr shadow result shadow_result : Mat F} {column : Nat}
    (hlen : 1 < curr.length) :
    utLoop (f + 1) curr shadow column result shadow_result
      = match eliminate curr column 0 shadow with
        | none => none
        | some (curr', shadow') =>
          utLoop f (curr'.drop 1) (shadow'.drop 1) (column + 1)
            (result ++ [curr'.headD []]) (shadow_result ++ [shadow'.headD []]) := by
  rw [utLoop, if_pos hlen]

theorem utLoop_last {fuel : Nat} {c0 s0 : List F} {ct st result shadow_result : Mat F}
    {column : Nat} (hlen : ¬ 1 < (c0 :: ct).length) :
    utLoop fuel (c0 :: ct) (s0 :: st) column result shadow_result
      = some (result ++ [c0], shadow_result ++ [s0]) := by
  cases fuel with
  | zero => rw [utLoop, if_neg hlen]; rfl
  | succ f => rw [utLoop, if_neg hlen]; rfl
/-- The invariant of phase 2 (`upper_triangular`): the stacked state stays
row-equivalent to the original matrix with the shadow recording the
coefficients, already-emitted rows are upper triangular, and the determinant
of the stacked state never changes. -/
theorem utLoop_spec {n : Nat} (m0 : Mat F) :
    ∀ (fuel : Nat) (curr shadow result shadow_result : Mat F) (column : Nat)
      (ut shf : Mat F),
      m0.length = n →
      curr.length + column = n →
      shadow.length = curr.length →
      0 < curr.length →
      curr.length ≤ fuel →
      Wd n curr → Wd n shadow → Wd n result → Wd n shadow_result →
      result.length = column →
      shadow_result.length = column →
      Tracks m0 curr shadow →
      Tracks m0 result shadow_result →
      (∀ i c, c < column → entry curr i c = 0) →
      (∀ t c, c < t → entry result t c = 0) →
      (toMatrix (result ++ curr) n).det = (toMatrix m0 n).det →
      utLoop fuel curr shadow column result shadow_result = some (ut, shf) →
      ut.length = n ∧ shf.length = n ∧ Wd n ut ∧ Wd n shf ∧
        Tracks m0 ut shf ∧ (∀ t c, c < t → entry ut t c = 0) ∧
        (toMatrix ut n).det = (toMatrix m0 n).det := by
  intro fuel
  induction fuel with
  | zero =>
    intro curr shadow result shadow_result column ut shf hm0 hcnt hshl hpos hfuel
    omega
  | succ f ih =>
    intro curr shadow result shadow_result column ut shf hm0 hcnt hshl hpos hfuel
      hwc hws hwr hwsr hrl hsrl htc htr hzc hzr hdet hsome
    by_cases hlen : 1 < curr.length
    · -- loop step
      rw [utLoop_step hlen] at hsome
      rcases helim : eliminate curr column 0 shadow with _ | ⟨curr', shadow'⟩
      · rw [helim] at hsome
        exact Option.noConfusion hsome
      rw [helim] at hsome
      have hsome2 : utLoop f (curr'.drop 1) (shadow'.drop 1) (column + 1)
          (result ++ [curr'.headD []]) (shadow_result ++ [shadow'.headD []])
          = some (ut, shf) := hsome
      obtain ⟨hpv, hclen, hslen, hwc', hws', hhead_c, hhead_s, hform⟩ :=
        eliminate_spec (n := n) hpos hshl hwc hws helim
      have hx : ∀ j, (curr'.headD []).getD j 0 = entry curr 0 j := by
        intro j
        rw [headD_eq_getD]
        exact hhead_c j
      have hy : ∀ k, (shadow'.headD []).getD k 0 = entry shadow 0 k := by
        intro k
        rw [headD_eq_getD]
        exact hhead_s k
      have hxl : (curr'.headD []).length = n := by
        rw [headD_eq_getD]
        exact length_getD_of_Wd hwc' (by omega)
      have hyl : (shadow'.headD []).length = n := by
        rw [headD_eq_getD]
        exact length_getD_of_Wd hws' (by omega)
      -- tracking of the new working pair
      have htc2 : Tracks m0 (curr'.drop 1) (shadow'.drop 1) := by
        intro i j
        rw [entry_drop_one]
        rw [Finset.sum_congr rfl (fun k _ => by rw [entry_drop_one shadow' i k])]
        rcases Nat.lt_or_ge (i + 1) curr.length with hi | hi
        · rw [(hform (i + 1) j (by omega) hi).1,
            Finset.sum_congr rfl (fun k _ => by rw [(hform (i + 1) k (by omega) hi).2]),
            sum_sub_smul m0.length (fun k => entry shadow (i + 1) k)
              (fun k => entry shadow 0 k) (fun k => entry m0 k j)
              (entry curr (i + 1) column * (entry curr 0 column)⁻¹),
            ← htc (i + 1) j, ← htc 0 j]
        · rw [entry_row_ge curr' (by omega) j, eq_comm]
          refine Finset.sum_eq_zero (fun k _ => ?_)
          rw [entry_row_ge shadow' (by omega) k, zero_mul]
      -- zero columns of the new working matrix
      have hzc2 : ∀ i c, c < column + 1 → entry (curr'.drop 1) i c = 0 := by
        intro i c hc
        rw [entry_drop_one]
        rcases Nat.lt_or_ge (i + 1) curr.length with hi | hi
        · rw [(hform (i + 1) c (by omega) hi).1]
          rcases Nat.lt_or_ge c column with hcc | hcc
          · rw [hzc (i + 1) c hcc, hzc 0 c hcc]
            ring
          · have hceq : c = column := by omega
            subst hceq
            rw [mul_assoc, inv_mul_cancel₀ hpv, mul_one, sub_self]
        · rw [entry_row_ge curr' (by omega) c]
      -- tracking of the emitted rows
      have htr2 : Tracks m0 (result ++ [curr'.headD []])
          (shadow_result ++ [shadow'.headD []]) := by
        intro t j
        rcases Nat.lt_trichotomy t column with ht | ht | ht
        · rw [entry_append, if_pos (by rw [hrl]; exact ht), htr t j]
          refine Finset.sum_congr rfl (fun k _ => ?_)
          rw [entry_append, if_pos (by rw [hsrl]; exact ht)]
        · subst ht
          rw [entry_append, if_neg (by rw [hrl]; omega), hrl, Nat.sub_self]
          have h1 : entry [curr'.headD []] 0 j = entry curr 0 j := hx j
          rw [h1, htc 0 j]
          refine Finset.sum_congr rfl (fun k _ => ?_)
          rw [entry_append, if_neg (by rw [hsrl]; omega), hsrl, Nat.sub_self]
          have h2 : entry [shadow'.headD []] 0 k = entry shadow 0 k := hy k
          rw [h2]
        · rw [entry_row_ge _ (by simp [hrl]; omega) j, eq_comm]
          refine Finset.sum_eq_zero (fun k _ => ?_)
          rw [entry_row_ge _ (by simp [hsrl]; omega) k, zero_mul]
      -- triangularity of the emitted rows
      have hzr2 : ∀ t c, c < t → entry (result ++ [curr'.headD []]) t c = 0 := by
        intro t c hct
        rcases Nat.lt_trichotomy t column with ht | ht | ht
        · rw [entry_append, if_pos (by rw [hrl]; exact ht)]
          exact hzr t c hct
        · subst ht
          rw [entry_append, if_neg (by rw [hrl]; omega), hrl, Nat.sub_self]
          exact (hx c).trans (hzc 0 c hct)
        · rw [entry_row_ge _ (by simp [hrl]; omega) c]
      -- determinant of the stacked state
      have hstack : (result ++ [curr'.headD []]) ++ curr'.drop 1 = result ++ curr' := by
        rw [List.append_assoc]
        congr 1
        rcases curr' with _ | ⟨cx, cxs⟩
        · rw [List.length_nil] at hclen
          omega
        · rfl
      have hdet2 : (toMatrix ((result ++ [curr'.headD []]) ++ curr'.drop 1) n).det
          = (toMatrix m0 n).det := by
        rw [hstack, ← hdet]
        have hcoln : column < n := by omega
        refine det_row_sub (toMatrix (result ++ curr) n) _ ⟨column, hcoln⟩
          (fun r => if r.val < column + 1 then 0
            else entry curr (r.val - column) column * (entry curr 0 column)⁻¹)
          (by simp) ?_ ?_
        · intro r hr
          have hrv : r.val < column := hr
          show (if r.val < column + 1 then (0 : F)
            else entry curr (r.val - column) column * (entry curr 0 column)⁻¹) = 0
          rw [if_pos (by omega)]
        · intro r s
          show entry (result ++ curr') r.val s.val
            = entry (result ++ curr) r.val s.val
              - (if r.val < column + 1 then (0 : F)
                  else entry curr (r.val - column) column * (entry curr 0 column)⁻¹)
                * entry (result ++ curr) column s.val
          have hAps : entry (result ++ curr) column s.val = entry curr 0 s.val := by
            rw [entry_append, if_neg (by rw [hrl]; omega), hrl, Nat.sub_self]
          rcases Nat.lt_trichotomy r.val column with hrv | hrv | hrv
          · rw [if_pos (by omega : r.val < column + 1)]
            rw [entry_append, if_pos (by rw [hrl]; exact hrv),
              entry_append, if_pos (by rw [hrl]; exact hrv)]
            ring
          · rw [if_pos (by omega : r.val < column + 1)]
            rw [hrv, entry_append, if_neg (by rw [hrl]; omega), hrl, Nat.sub_self, hAps,
              show entry curr' 0 s.val = entry curr 0 s.val from hhead_c s.val]
            ring
          · rw [if_neg (by omega : ¬ r.val < column + 1)]
            have hd1 : 1 ≤ r.val - column := by omega
            have hd2 : r.val - column < curr.length := by
              have := r.isLt
              omega
            rw [entry_append, if_neg (by rw [hrl]; omega), hrl,
              entry_append, if_neg (by rw [hrl]; omega), hrl, hAps,
              (hform (r.val - column) s.val hd1 hd2).1]
      -- recurse
      have hc2len : (curr'.drop 1).length = curr.length - 1 := by
        rw [List.length_drop, hclen]
      have hs2len : (shadow'.drop 1).length = curr.length - 1 := by
        rw [List.length_drop, hslen]
      refine ih (curr'.drop 1) (shadow'.drop 1) (result ++ [curr'.headD []])
        (shadow_result ++ [shadow'.headD []]) (column + 1) ut shf hm0
        (by omega) (by omega) (by omega) (by omega)
        (Wd_drop hwc' 1) (Wd_drop hws' 1)
        (Wd_append hwr (fun r hr => by
          rcases List.mem_singleton.mp hr with rfl
          exact hxl))
        (Wd_append hwsr (fun r hr => by
          rcases List.mem_singleton.mp hr with rfl
          exact hyl))
        (by simp [hrl]) (by simp [hsrl])
        htc2 htr2 hzc2 hzr2 hdet2 hsome2
    · -- terminal step
      have hL1 : curr.length = 1 := by omega
      rcases curr with _ | ⟨c0, ct⟩
      · rw [List.length_nil] at hL1
        omega
      rcases shadow with _ | ⟨s0, st⟩
      · rw [List.length_nil] at hshl
        rw [hshl] at hpos
        omega
      have hct : ct = [] := by
        rw [List.length_cons] at hL1
        exact List.length_eq_zero.mp (by omega)
      subst hct
      have hst : st = [] := by
        rw [List.length_cons, List.length_cons, List.length_nil] at hshl
        exact List.length_eq_zero.mp (by omega)
      subst hst
      rw [utLoop_last hlen] at hsome
      rw [Option.some.injEq, Prod.mk.injEq] at hsome
      obtain ⟨hut, hshf⟩ := hsome
      subst hut hshf
      have hcol : column + 1 = n := by
        rw [List.length_cons, List.length_nil] at hcnt
        omega
      refine ⟨by simp [hrl]; omega, by simp [hsrl]; omega, ?_, ?_, ?_, ?_, ?_⟩
      · exact Wd_append hwr hwc
      · exact Wd_append hwsr hws
      · -- Tracks
        intro t j
        rcases Nat.lt_trichotomy t column with ht | ht | ht
        · rw [entry_append, if_pos (by rw [hrl]; exact ht), htr t j]
          refine Finset.sum_congr rfl (fun k _ => ?_)
          rw [entry_append, if_pos (by rw [hsrl]; exact ht)]
        · subst ht
          rw [entry_append, if_neg (by rw [hrl]; omega), hrl, Nat.sub_self, htc 0 j]
          refine Finset.sum_congr rfl (fun k _ => ?_)
          rw [entry_append, if_neg (by rw [hsrl]; omega), hsrl, Nat.sub_self]
        · rw [entry_row_ge _ (by simp [hrl]; omega) j, eq_comm]
          refine Finset.sum_eq_zero (fun k _ => ?_)
          rw [entry_row_ge _ (by simp [hsrl]; omega) k, zero_mul]
      · -- triangular
        intro t c hct
        rcases Nat.lt_trichotomy t column with ht | ht | ht
        · rw [entry_append, if_pos (by rw [hrl]; exact ht)]
          exact hzr t c hct
        · subst ht
          rw [entry_append, if_neg (by rw [hrl]; omega), hrl, Nat.sub_self]
          exact hzc 0 c hct
        · rw [entry_row_ge _ (by simp [hrl]; omega) c]
      · exact hdet
theorem sum_delta_mul {N : Nat} {i : Nat} (g : Nat → F) (hi : i < N) :
    ∑ k in Finset.range N, (if i = k then (1 : F) else 0) * g k = g i := by
  simp [ite_mul, Finset.sum_ite_eq, hi]

/-- Phase 2 in one piece: a successful `upper_triangular` run starting from
the identity shadow yields an upper-triangular matrix that is tracked by the
shadow and has the original determinant. -/
theorem upper_triangular_spec {n : Nat} {m ut shf : Mat F}
    (hl : m.length = n) (hw : Wd n m) (hpos : 0 < n)
    (h : upper_triangular m (make_identity n) = some (ut, shf)) :
    ut.length = n ∧ shf.length = n ∧ Wd n ut ∧ Wd n shf ∧
      Tracks m ut shf ∧ (∀ t c, c < t → entry ut t c = 0) ∧
      (toMatrix ut n).det = (toMatrix m n).det := by
  rw [upper_triangular] at h
  by_cases hsq : is_square m = true
  case neg =>
    rw [if_neg (by simpa using hsq)] at h
    cases h
  rw [if_pos hsq] at h
  refine utLoop_spec m m.length m (make_identity n) [] [] 0 ut shf hl (by omega)
    (by rw [length_make_identity, hl]) (by omega) le_rfl hw (Wd_make_identity n)
    (fun r hr => absurd hr (List.not_mem_nil r))
    (fun r hr => absurd hr (List.not_mem_nil r)) rfl rfl ?_ ?_
    (fun i c hc => absurd hc (Nat.not_lt_zero c))
    (fun t c _ => entry_row_ge [] (by simp) c) (by rw [List.nil_append]) h
  · -- Tracks m m (make_identity n)
    intro i j
    rcases Nat.lt_or_ge i n with hi | hi
    · rw [Finset.sum_congr rfl (fun k hk => by
        rw [entry_make_identity hi (by rw [← hl]; exact Finset.mem_range.mp hk)]),
        hl, sum_delta_mul (fun k => entry m k j) hi]
    · rw [entry_row_ge m (by omega) j, eq_comm]
      refine Finset.sum_eq_zero (fun k _ => ?_)
      rw [entry_row_ge (make_identity n) (by rw [length_make_identity]; omega) k, zero_mul]
  · intro i j
    rw [entry_row_ge [] (by simp) j, eq_comm]
    refine Finset.sum_eq_zero (fun k _ => ?_)
    rw [entry_row_ge [] (by simp) k, zero_mul]
/-- The inner back-substitution fold: each step clears one already-finished
column, preserves widths, and preserves row-level tracking. -/
theorem solveFold_spec {n : Nat} (m0 : Mat F) (hm0 : m0.length = n)
    (result shadow_result : Mat F) (i : Nat)
    (hrl : result.length = i) (hsrl : shadow_result.length = i)
    (hwr : Wd n result) (hwsr : Wd n shadow_result)
    (hid : ∀ t c, t < i → entry result t c = (if c = n - 1 - t then (1 : F) else 0))
    (htrr : Tracks m0 result shadow_result)
    (hin : i ≤ n)
    (v w : List F) (hvl : v.length = n) (hwl : w.length = n)
    (hrt : rowTracks m0 v w) :
    ∀ t, t ≤ i →
      ((List.range t).foldl (solveStep n result shadow_result) (v, w)).1.length = n ∧
      ((List.range t).foldl (solveStep n result shadow_result) (v, w)).2.length = n ∧
      (∀ c, ((List.range t).foldl (solveStep n result shadow_result) (v, w)).1.getD c 0
        = if n - t ≤ c ∧ c < n then 0 else v.getD c 0) ∧
      rowTracks m0 ((List.range t).foldl (solveStep n result shadow_result) (v, w)).1
        ((List.range t).foldl (solveStep n result shadow_result) (v, w)).2 := by
  intro t
  induction t with
  | zero =>
    intro _
    simp only [List.range_zero, List.foldl_nil]
    exact ⟨hvl, hwl, fun c => by rw [if_neg (by omega)], hrt⟩
  | succ t iht =>
    intro ht
    obtain ⟨hql, hq2l, hsh, hqt⟩ := iht (by omega)
    set q := (List.range t).foldl (solveStep n result shadow_result) (v, w) with hq
    have hfold : (List.range (t + 1)).foldl (solveStep n result shadow_result) (v, w)
        = solveStep n result shadow_result q t := by
      rw [List.range_succ, List.foldl_append]
      rfl
    have hstep : solveStep n result shadow_result q t
        = (vec_sub q.1 (scalar_vec_mul (q.1.getD (n - t - 1) 0) (result.getD t [])),
           vec_sub q.2 (scalar_vec_mul (q.1.getD (n - t - 1) 0) (shadow_result.getD t []))) :=
      rfl
    have hresl : (result.getD t []).length = n :=
      length_getD_of_Wd hwr (by omega)
    have hsrsl : (shadow_result.getD t []).length = n :=
      length_getD_of_Wd hwsr (by omega)
    have hrowid : ∀ c, (result.getD t []).getD c 0 = if c = n - 1 - t then (1 : F) else 0 :=
      fun c => hid t c (by omega)
    have hn1 : 0 < n := by omega
    rw [hfold, hstep]
    have hvv : q.1.getD (n - t - 1) 0 = q.1.getD (n - 1 - t) 0 := by
      congr 1
      omega
    refine ⟨?_, ?_, ?_, ?_⟩
    · rw [length_vec_sub, length_scalar_vec_mul, hql, hresl, Nat.min_self]
    · rw [length_vec_sub, length_scalar_vec_mul, hq2l, hsrsl, Nat.min_self]
    · intro c
      rw [getD_vec_sub (by rw [length_scalar_vec_mul, hql, hresl]),
        getD_scalar_vec_mul, hrowid c]
      by_cases hc : c = n - 1 - t
      · rw [if_pos hc, mul_one, hvv, hc, hsh (n - 1 - t),
          if_neg (by omega), if_pos (by omega), sub_self]
      · rw [if_neg hc, mul_zero, sub_zero, hsh c]
        by_cases hcr : n - t ≤ c ∧ c < n
        · rw [if_pos hcr, if_pos (by omega)]
        · rw [if_neg hcr, if_neg (by omega)]
    · have hl1 : q.1.length
          = (scalar_vec_mul (q.1.getD (n - t - 1) 0) (result.getD t [])).length := by
        rw [length_scalar_vec_mul, hql, hresl]
      have hl2 : q.2.length
          = (scalar_vec_mul (q.1.getD (n - t - 1) 0) (shadow_result.getD t [])).length := by
        rw [length_scalar_vec_mul, hq2l, hsrsl]
      intro s
      show (vec_sub q.1 (scalar_vec_mul (q.1.getD (n - t - 1) 0) (result.getD t []))).getD s 0
        = ∑ k in Finset.range m0.length,
            (vec_sub q.2 (scalar_vec_mul (q.1.getD (n - t - 1) 0)
              (shadow_result.getD t []))).getD k 0 * entry m0 k s
      rw [getD_vec_sub hl1 s, getD_scalar_vec_mul,
        show (result.getD t []).getD s 0 = entry result t s from rfl,
        htrr t s, hqt s,
        ← sum_sub_smul m0.length (fun k => q.2.getD k 0)
          (fun k => entry shadow_result t k) (fun k => entry m0 k s)
          (q.1.getD (n - t - 1) 0)]
      refine Finset.sum_congr rfl (fun k _ => ?_)
      congr 1
      rw [getD_vec_sub hl2 k, getD_scalar_vec_mul]
      rfl
theorem solveLoop_succ (matrix shadow : Mat F) (size r i : Nat)
    (result shadow_result : Mat F) :
    solveLoop matrix shadow size (r + 1) i result shadow_result
      = if (matrix.getD (size - i - 1) []).getD (size - i - 1) 0 = 0 then none
        else
          solveLoop matrix shadow size r (i + 1)
            (result ++ [((List.range i).foldl (solveStep size result shadow_result)
              (scalar_vec_mul ((matrix.getD (size - i - 1) []).getD (size - i - 1) 0)⁻¹
                 (matrix.getD (size - i - 1) []),
               scalar_vec_mul ((matrix.getD (size - i - 1) []).getD (size - i - 1) 0)⁻¹
                 (shadow.getD (size - i - 1) []))).1])
            (shadow_result ++ [((List.range i).foldl (solveStep size result shadow_result)
              (scalar_vec_mul ((matrix.getD (size - i - 1) []).getD (size - i - 1) 0)⁻¹
                 (matrix.getD (size - i - 1) []),
               scalar_vec_mul ((matrix.getD (size - i - 1) []).getD (size - i - 1) 0)⁻¹
                 (shadow.getD (size - i - 1) []))).2]) := rfl

/-- The invariant of phase 3 (`solve`): processed rows form, bottom-up, the
rows of the identity, and stay tracked by the shadow. -/
theorem solveLoop_spec {n : Nat} (m0 ut sh : Mat F) (hm0 : m0.length = n)
    (hutl : ut.length = n) (hwut : Wd n ut) (hshl : sh.length = n) (hwsh : Wd n sh)
    (htr : Tracks m0 ut sh)
    (hzero : ∀ t c, c < t → entry ut t c = 0) :
    ∀ (r i : Nat) (result shadow_result res shf : Mat F),
      r + i = n →
      result.length = i → shadow_result.length = i →
      Wd n result → Wd n shadow_result →
      (∀ t c, t < i → entry result t c = (if c = n - 1 - t then (1 : F) else 0)) →
      Tracks m0 result shadow_result →
      solveLoop ut sh n r i result shadow_result = some (res, shf) →
      res.length = n ∧ shf.length = n ∧ Wd n res ∧ Wd n shf ∧
        (∀ t c, t < n → entry res t c = (if c = n - 1 - t then (1 : F) else 0)) ∧
        Tracks m0 res shf := by
  intro r
  induction r with
  | zero =>
    intro i result shadow_result res shf hri hrl hsrl hwr hwsr hid htrr hsome
    rw [solveLoop, Option.some.injEq, Prod.mk.injEq] at hsome
    obtain ⟨h1, h2⟩ := hsome
    subst h1
    subst h2
    exact ⟨by omega, by omega, hwr, hwsr, fun t c htn => hid t c (by omega), htrr⟩
  | succ r ih =>
    intro i result shadow_result res shf hri hrl hsrl hwr hwsr hid htrr hsome
    have hin : i < n := by omega
    rw [solveLoop_succ] at hsome
    by_cases hv : (ut.getD (n - i - 1) []).getD (n - i - 1) 0 = 0
    · rw [if_pos hv] at hsome
      exact Option.noConfusion hsome
    rw [if_neg hv] at hsome
    have hutrl : (ut.getD (n - i - 1) []).length = n :=
      length_getD_of_Wd hwut (by omega)
    have hshrl : (sh.getD (n - i - 1) []).length = n :=
      length_getD_of_Wd hwsh (by omega)
    have hvl : (scalar_vec_mul ((ut.getD (n - i - 1) []).getD (n - i - 1) 0)⁻¹
        (ut.getD (n - i - 1) [])).length = n := by
      rw [length_scalar_vec_mul, hutrl]
    have hwl : (scalar_vec_mul ((ut.getD (n - i - 1) []).getD (n - i - 1) 0)⁻¹
        (sh.getD (n - i - 1) [])).length = n := by
      rw [length_scalar_vec_mul, hshrl]
    have hrt : rowTracks m0
        (scalar_vec_mul ((ut.getD (n - i - 1) []).getD (n - i - 1) 0)⁻¹
          (ut.getD (n - i - 1) []))
        (scalar_vec_mul ((ut.getD (n - i - 1) []).getD (n - i - 1) 0)⁻¹
          (sh.getD (n - i - 1) [])) := by
      intro s
      rw [getD_scalar_vec_mul,
        show (ut.getD (n - i - 1) []).getD s 0 = entry ut (n - i - 1) s from rfl,
        htr (n - i - 1) s, Finset.mul_sum]
      refine Finset.sum_congr rfl (fun k _ => ?_)
      rw [getD_scalar_vec_mul,
        show (sh.getD (n - i - 1) []).getD k 0 = entry sh (n - i - 1) k from rfl]
      ring
    obtain ⟨hp1l, hp2l, hpsh, hprt⟩ := solveFold_spec m0 hm0 result shadow_result i
      hrl hsrl hwr hwsr hid htrr (by omega) _ _ hvl hwl hrt i le_rfl
    have hprow : ∀ c, ((List.range i).foldl (solveStep n result shadow_result)
        (scalar_vec_mul ((ut.getD (n - i - 1) []).getD (n - i - 1) 0)⁻¹
          (ut.getD (n - i - 1) []),
         scalar_vec_mul ((ut.getD (n - i - 1) []).getD (n - i - 1) 0)⁻¹
          (sh.getD (n - i - 1) []))).1.getD c 0
        = if c = n - 1 - i then (1 : F) else 0 := by
      intro c
      rw [hpsh c]
      by_cases hc1 : n - i ≤ c ∧ c < n
      · rw [if_pos hc1, if_neg (by omega)]
      · rw [if_neg hc1, getD_scalar_vec_mul]
        by_cases hc2 : c = n - 1 - i
        · rw [if_pos hc2, hc2,
            show (ut.getD (n - i - 1) []).getD (n - 1 - i) 0
              = (ut.getD (n - i - 1) []).getD (n - i - 1) 0 from by congr 1; omega,
            inv_mul_cancel₀ hv]
        · rw [if_neg hc2]
          rcases Nat.lt_or_ge c n with hcn | hcn
          · have hcidx : c < n - i - 1 := by omega
            rw [show (ut.getD (n - i - 1) []).getD c 0 = entry ut (n - i - 1) c from rfl,
              hzero _ _ hcidx, mul_zero]
          · rw [getD_ge (ut.getD (n - i - 1) []) (0 : F)
              (show (ut.getD (n - i - 1) []).length ≤ c by rw [hutrl]; exact hcn), mul_zero]
    refine ih (i + 1) _ _ res shf (by omega) (by simp [hrl]) (by simp [hsrl])
      (Wd_append hwr (fun rr hrr => by
        rcases List.mem_singleton.mp hrr with rfl
        exact hp1l))
      (Wd_append hwsr (fun rr hrr => by
        rcases List.mem_singleton.mp hrr with rfl
        exact hp2l))
      ?_ ?_ hsome
    · intro t c htn
      rcases Nat.lt_or_ge t i with hti | hti
      · rw [entry_append, if_pos (by rw [hrl]; exact hti)]
        exact hid t c hti
      · have hteq : t = i := by omega
        subst hteq
        rw [entry_append, if_neg (by rw [hrl]; omega), hrl, Nat.sub_self]
        exact hprow c
    · intro t j
      rcases Nat.lt_trichotomy t i with hti | hti | hti
      · rw [entry_append, if_pos (by rw [hrl]; exact hti), htrr t j]
        refine Finset.sum_congr rfl (fun k _ => ?_)
        rw [entry_append, if_pos (by rw [hsrl]; exact hti)]
      · subst hti
        rw [entry_append, if_neg (by rw [hrl]; omega), hrl, Nat.sub_self]
        refine (hprt j).trans ?_
        refine Finset.sum_congr rfl (fun k _ => ?_)
        rw [entry_append, if_neg (by rw [hsrl]; omega), hsrl, Nat.sub_self]
        rfl
      · rw [entry_row_ge _ (by simp [hrl]; omega) j, eq_comm]
        refine Finset.sum_eq_zero (fun k _ => ?_)
        rw [entry_row_ge _ (by simp [hsrl]; omega) k, zero_mul]
theorem getD_reverse_lt {α : Type} {l : List α} {t : Nat} (h : t < l.length) (d : α) :
    l.reverse.getD t d = l.getD (l.length - 1 - t) d := by
  rw [List.getD_eq_getElem?_getD, List.getElem?_reverse h, List.getD_eq_getElem?_getD]

theorem entry_reverse {l : Mat F} {t : Nat} (h : t < l.length) (j : Nat) :
    entry l.reverse t j = entry l (l.length - 1 - t) j := by
  show (l.reverse.getD t []).getD j 0 = (l.getD (l.length - 1 - t) []).getD j 0
  rw [getD_reverse_lt h]

theorem Wd_reverse {w : Nat} {l : Mat F} (h : Wd w l) : Wd w l.reverse :=
  fun r hr => h r (List.mem_reverse.mp hr)

/-- Phase 3 in one piece: a successful `solve` of a tracked upper-triangular
pair returns the identity together with a shadow that still tracks. -/
theorem solve_spec {n : Nat} {m0 ut sh res shf : Mat F} (hm0 : m0.length = n)
    (hutl : ut.length = n) (hwut : Wd n ut) (hshl : sh.length = n) (hwsh : Wd n sh)
    (htr : Tracks m0 ut sh) (hzero : ∀ t c, c < t → entry ut t c = 0)
    (h : solve ut sh = some (res, shf)) :
    res.length = n ∧ shf.length = n ∧ Wd n res ∧ Wd n shf ∧
      (∀ t c, t < n → entry res t c = (if t = c then (1 : F) else 0)) ∧
      Tracks m0 res shf := by
  rw [solve] at h
  rcases hsl : solveLoop ut sh (rows ut) (rows ut) 0 [] [] with _ | ⟨res0, shf0⟩
  · rw [hsl] at h
    exact Option.noConfusion h
  rw [hsl] at h
  have h2 := Option.some.inj h
  have hres : res0.reverse = res := congrArg Prod.fst h2
  have hshf : shf0.reverse = shf := congrArg Prod.snd h2
  have hrows : rows ut = n := hutl
  rw [hrows] at hsl
  obtain ⟨hl1, hl2, hw1, hw2, hidrow, htrk⟩ := solveLoop_spec m0 ut sh hm0 hutl hwut
    hshl hwsh htr hzero n 0 [] [] res0 shf0 (by omega) rfl rfl
    (fun r hr => absurd hr (List.not_mem_nil r))
    (fun r hr => absurd hr (List.not_mem_nil r))
    (fun t c ht => absurd ht (Nat.not_lt_zero t))
    (fun i j => by
      rw [entry_row_ge [] (by simp) j, eq_comm]
      refine Finset.sum_eq_zero (fun k _ => ?_)
      rw [entry_row_ge [] (by simp) k, zero_mul]) hsl
  subst hres
  subst hshf
  refine ⟨by simp [hl1], by simp [hl2], Wd_reverse hw1, Wd_reverse hw2, ?_, ?_⟩
  · intro t c ht
    rw [entry_reverse (by omega : t < res0.length)]
    rw [hl1, hidrow (n - 1 - t) c (by omega)]
    have harith : n - 1 - (n - 1 - t) = t := by omega
    rw [harith]
    by_cases hc : c = t
    · rw [if_pos hc, if_pos hc.symm]
    · rw [if_neg hc, if_neg (fun hct => hc hct.symm)]
  · intro t j
    rcases Nat.lt_or_ge t n with ht | ht
    · rw [entry_reverse (by omega : t < res0.length), hl1, htrk (n - 1 - t) j]
      refine Finset.sum_congr rfl (fun k _ => ?_)
      rw [entry_reverse (by omega : t < shf0.length), hl2]
    · rw [entry_row_ge _ (by simp [hl1]; omega) j, eq_comm]
      refine Finset.sum_eq_zero (fun k _ => ?_)
      rw [entry_row_ge _ (by simp [hl2]; omega) k, zero_mul]

/-- A successful run of the whole elimination pipeline computes a genuine
two-sided inverse. -/
theorem invert_spec {n : Nat} {m s : Mat F} (hl : m.length = n) (hw : Wd n m)
    (hpos : 0 < n) (hinv : invert m = some (some s)) :
    s.length = n ∧ Wd n s ∧
      toMatrix s n * toMatrix m n = 1 ∧ toMatrix m n * toMatrix s n = 1 := by
  have hcols : columns m = n :=
    columns_eq_of_Wd hw (by intro h0; rw [h0] at hl; rw [List.length_nil] at hl; omega)
  rw [invert, hcols] at hinv
  rcases hup : upper_triangular m (make_identity n) with _ | ⟨ut, sh1⟩
  · rw [hup] at hinv
    exact Option.noConfusion hinv
  rw [hup] at hinv
  have hinv2 : (match solve ut sh1 with
      | none => none
      | some (_res, shadow') => some (some shadow')) = some (some s) := hinv
  rcases hsv : solve ut sh1 with _ | ⟨res, shf⟩
  · rw [hsv] at hinv2
    exact Option.noConfusion hinv2
  rw [hsv] at hinv2
  have hs : shf = s := by
    have h1 := Option.some.inj hinv2
    exact Option.some.inj h1
  subst hs
  obtain ⟨hutl, hshl, hwut, hwsh, htrk, hzero, hdet⟩ := upper_triangular_spec hl hw hpos hup
  obtain ⟨hrl, hfl, hwres, hwshf, hident, htr2⟩ :=
    solve_spec hl hutl hwut hshl hwsh htrk hzero hsv
  have hSM : toMatrix shf n * toMatrix m n = 1 := by
    ext i j
    rw [Matrix.mul_apply, Matrix.one_apply]
    simp only [toMatrix, Matrix.of_apply]
    rw [Fin.sum_univ_eq_sum_range (fun k => entry shf i.val k * entry m k j.val) n,
      show (Finset.range n) = Finset.range m.length from by rw [hl], ← htr2 i.val j.val,
      hident i.val j.val i.isLt]
    by_cases hij : i = j
    · rw [if_pos hij, if_pos (by rw [hij])]
    · rw [if_neg hij, if_neg (fun hv => hij (Fin.ext hv))]
  exact ⟨hfl, hwshf, hSM, Matrix.mul_eq_one_comm.mp hSM⟩
theorem invert_nil : invert ([] : Mat F) = none := rfl

theorem det_ne_zero_of_left_inverse {n : Nat} {S B : Matrix (Fin n) (Fin n) F}
    (h : S * B = 1) : B.det ≠ 0 := by
  intro h0
  have hd := congrArg Matrix.det h
  rw [Matrix.det_mul, h0, mul_zero, Matrix.det_one] at hd
  exact zero_ne_one hd

theorem eq_of_toMatrix {n : Nat} {a b : Mat F} (hla : a.length = n) (hwa : Wd n a)
    (hlb : b.length = n) (hwb : Wd n b) (h : toMatrix a n = toMatrix b n) : a = b := by
  apply eq_of_getD [] (by rw [hla, hlb])
  intro i
  rcases Nat.lt_or_ge i n with hi | hi
  · apply eq_of_getD 0
      (by rw [length_getD_of_Wd hwa (by omega), length_getD_of_Wd hwb (by omega)])
    intro j
    rcases Nat.lt_or_ge j n with hj | hj
    · exact Matrix.ext_iff.mpr h ⟨i, hi⟩ ⟨j, hj⟩
    · rw [getD_ge _ _ (by rw [length_getD_of_Wd hwa (by omega)]; exact hj),
        getD_ge _ _ (by rw [length_getD_of_Wd hwb (by omega)]; exact hj)]
  · rw [getD_ge _ _ (by omega), getD_ge _ _ (by omega)]

theorem solveLoop_total {n : Nat} (ut sh : Mat F)
    (hd : ∀ t, t < n → entry ut t t ≠ 0) :
    ∀ (r i : Nat) (result shadow_result : Mat F), r + i = n →
      solveLoop ut sh n r i result shadow_result ≠ none := by
  intro r
  induction r with
  | zero =>
    intro i result sr hri h
    rw [solveLoop] at h
    cases h
  | succ r ih =>
    intro i result sr hri h
    rw [solveLoop_succ] at h
    have hidx : n - i - 1 < n := by omega
    rw [if_neg (show ¬ (ut.getD (n - i - 1) []).getD (n - i - 1) 0 = 0 from hd _ hidx)] at h
    exact ih (i + 1) _ _ (by omega) h

theorem apply_matrix_length (m : Mat F) (v : List F) :
    (apply_matrix m v).length = v.length := by
  simp [apply_matrix]

theorem apply_matrix_vecMul {n : Nat} {m : Mat F} (hl : m.length = n) {v : List F}
    (hvl : v.length = n) {j : Nat} (hj : j < n) :
    (apply_matrix m v).getD j 0
      = Matrix.vecMul (fun i : Fin n => v.getD i.val 0) (toMatrix m n) ⟨j, hj⟩ := by
  rw [apply_matrix, getD_map_range _ _ (by omega : j < v.length),
    foldl_range_sum (fun i => entry m i j * v.getD i 0) (rows m)]
  rw [show rows m = n from hl]
  rw [Matrix.vecMul, Matrix.dotProduct]
  rw [show (∑ i : Fin n, v.getD i.val 0 * toMatrix m n i ⟨j, hj⟩)
      = ∑ i ∈ Finset.range n, v.getD i 0 * entry m i j from
    Fin.sum_univ_eq_sum_range (fun i => v.getD i 0 * entry m i j) n]
  refine Finset.sum_congr rfl (fun i _ => mul_comm _ _)

/-- C5 counterexample: the all-zero 2×2 matrix is singular, yet the fatal
failure happens already in phase 2 (`eliminate` rejects the zero pivot, so
`upper_triangular` aborts); back-substitution in `solve` is never reached,
contradicting the claimed failure location. -/
theorem singular_fails_in_elimination_cex :
    is_invertible ([[0, 0], [0, 0]] : Mat (ZMod 11)) = false ∧
    upper_triangular ([[0, 0], [0, 0]] : Mat (ZMod 11)) (make_identity 2) = none ∧
    invert ([[0, 0], [0, 0]] : Mat (ZMod 11)) = none := by
  exact ⟨by decide, by decide, by decide⟩

/-- C5 (amended): `invert` never returns an absent inner result: whenever it
completes it returns a present matrix; on well-formed square singular input
the computation aborts fatally (zero-pivot assertion in elimination or
division by zero in back-substitution) instead of completing; and for
nonsingular input the division by zero in `solve` is unreachable: whenever
elimination completes, `solve` does not fail. -/
theorem invert_always_present_fatal_on_singular :
    ∀ (F : Type) [Field F] [DecidableEq F] (m : Mat F),
      (∀ r, invert m = some r → ∃ s, r = some s) ∧
      (wellFormed m → is_square m = true → is_invertible m = false → invert m = none) ∧
      (wellFormed m → is_invertible m = true →
        ∀ ut sh, upper_triangular m (make_identity (columns m)) = some (ut, sh) →
          solve ut sh ≠ none) := by
  intro F _ _ m
  have ha : ∀ r, invert m = some r → ∃ s, r = some s := by
    intro r hr
    rw [invert] at hr
    rcases h1 : upper_triangular m (make_identity (columns m)) with _ | ⟨ut, sh⟩
    · rw [h1] at hr
      cases hr
    rw [h1] at hr
    have hr2 : (match solve ut sh with
        | none => none
        | some (_res, s') => some (some s')) = some r := hr
    rcases h2 : solve ut sh with _ | ⟨res, s'⟩
    · rw [h2] at hr2
      cases hr2
    · rw [h2] at hr2
      exact ⟨s', (Option.some.inj hr2).symm⟩
  refine ⟨ha, ?_, ?_⟩
  · intro hwf hsq hfalse
    rcases hi : invert m with _ | r
    · rfl
    exfalso
    obtain ⟨s, rfl⟩ := ha r hi
    obtain ⟨n, hl⟩ : ∃ n, m.length = n + 1 := by
      rcases m with _ | ⟨r0, t0⟩
      · rw [invert_nil] at hi
        cases hi
      · exact ⟨t0.length, rfl⟩
    have hsq' : rows m = columns m := by simpa [is_square] using hsq
    have hw : Wd (n + 1) m := fun r hr => by rw [hwf r hr, ← hsq']; exact hl
    obtain ⟨_, _, hSM, _⟩ := invert_spec hl hw (by omega) hi
    have hdet : determinant m ≠ 0 := by
      rw [determinant_eq_det n m hl hw]
      exact det_ne_zero_of_left_inverse hSM
    have : is_invertible m = true := by
      rw [is_invertible, hsq, Bool.true_and, decide_eq_true_eq]
      exact hdet
    rw [this] at hfalse
    cases hfalse
  · intro hwf hinv ut sh hup
    have hsq : is_square m = true := by
      rw [is_invertible, Bool.and_eq_true] at hinv
      exact hinv.1
    have hdet : determinant m ≠ 0 := by
      rw [is_invertible, Bool.and_eq_true, decide_eq_true_eq] at hinv
      exact hinv.2
    have hne : m ≠ [] := fun h0 => hdet (by rw [h0]; rfl)
    obtain ⟨n, hl⟩ : ∃ n, m.length = n + 1 := by
      rcases m with _ | ⟨r0, t0⟩
      · exact absurd rfl hne
      · exact ⟨t0.length, rfl⟩
    have hsq' : rows m = columns m := by simpa [is_square] using hsq
    have hw : Wd (n + 1) m := fun r hr => by rw [hwf r hr, ← hsq']; exact hl
    have hcols : columns m = n + 1 := columns_eq_of_Wd hw hne
    rw [hcols] at hup
    obtain ⟨hutl, hshl, hwut, hwsh, htrk, hzero, hdet2⟩ :=
      upper_triangular_spec hl hw (by omega) hup
    have hdetut : (toMatrix ut (n + 1)).det ≠ 0 := by
      rw [hdet2, ← determinant_eq_det n m hl hw]
      exact hdet
    have htriB : (toMatrix ut (n + 1)).BlockTriangular id := by
      intro i j hij
      exact hzero i.val j.val hij
    have hdiag : ∀ t, t < n + 1 → entry ut t t ≠ 0 := by
      intro t ht h0
      refine hdetut ?_
      rw [Matrix.det_of_upperTriangular htriB]
      exact Finset.prod_eq_zero (Finset.mem_univ (⟨t, ht⟩ : Fin (n + 1))) h0
    intro hcontra
    rw [solve] at hcontra
    have hrows : rows ut = n + 1 := hutl
    rw [hrows] at hcontra
    rcases hsl : solveLoop ut sh (n + 1) (n + 1) 0 [] [] with _ | p
    · exact solveLoop_total ut sh hdiag (n + 1) 0 [] [] (by omega) hsl
    · rw [hsl] at hcontra
      cases hcontra

theorem invert_always_present_fatal_on_singular_witness :
    wellFormed ([[0, 0], [0, 0]] : Mat (ZMod 11)) ∧
    is_square ([[0, 0], [0, 0]] : Mat (ZMod 11)) = true ∧
    is_invertible ([[0, 0], [0, 0]] : Mat (ZMod 11)) = false ∧
    invert ([[0, 0], [0, 0]] : Mat (ZMod 11)) = none :=
  ⟨by decide, by decide, by decide,
    (invert_always_present_fatal_on_singular (ZMod 11) [[0, 0], [0, 0]]).2.1
      (by decide) (by decide) (by decide)⟩

/-- C1 counterexample: `[[0,1],[1,0]]` over ℚ is square and invertible
(determinant −1), yet the elimination-based `invert` aborts (the pivot
`matrix[0][0]` is zero and `eliminate` asserts it nonzero), so
`mat_mul(M, invert(M))` cannot even be formed for this invertible `M`. -/
theorem invert_zero_pivot_cex :
    is_invertible ([[0, 1], [1, 0]] : Mat ℚ) = true ∧
    invert ([[0, 1], [1, 0]] : Mat ℚ) = none := by
  constructor
  · norm_num [is_invertible, is_square, determinant, detFuel, minor, entry, rows, columns,
      List.range_succ, List.eraseIdx]
  · decide

/-- C1 (amended): for every well-formed invertible matrix over any field the
cofactor-based inversion succeeds and multiplying back gives the identity,
and whenever the elimination-based `invert` completes with a matrix,
multiplying back also gives the identity — but `invert` can abort on
invertible input (zero pivot), so its half holds only conditionally on
success, not for every invertible matrix. -/
theorem invert_products_identity :
    ∀ (F : Type) [Field F] [DecidableEq F] (m : Mat F),
      wellFormed m → is_invertible m = true →
      (∃ s, invert_with_cofactors m = some (some s)) ∧
      (∀ s, invert_with_cofactors m = some (some s) →
        ∃ p, mat_mul m s = some (some p) ∧ is_identity p = true) ∧
      (∀ s, invert m = some (some s) →
        ∃ p, mat_mul m s = some (some p) ∧ is_identity p = true) := by
  intro F _ _ m hwf hinv
  have hsq : is_square m = true := by
    rw [is_invertible, Bool.and_eq_true] at hinv
    exact hinv.1
  have hdet : determinant m ≠ 0 := by
    rw [is_invertible, Bool.and_eq_true, decide_eq_true_eq] at hinv
    exact hinv.2
  have hne : m ≠ [] := fun h0 => hdet (by rw [h0]; rfl)
  obtain ⟨n, hl⟩ : ∃ n, m.length = n + 1 := by
    rcases m with _ | ⟨r0, t0⟩
    · exact absurd rfl hne
    · exact ⟨t0.length, rfl⟩
  have hsq' : rows m = columns m := by simpa [is_square] using hsq
  have hw : Wd (n + 1) m := fun r hr => by rw [hwf r hr, ← hsq']; exact hl
  obtain ⟨s0, hs0, _, _, _⟩ := invert_with_cofactors_eq hl hw hdet
  refine ⟨⟨s0, hs0⟩, ?_, ?_⟩
  · intro s hs
    obtain ⟨_, hls, hws, hMS, _⟩ := invert_with_cofactors_inverse hl hw hs
    exact mat_mul_identity_of hl hw hls hws hMS
  · intro s hs
    obtain ⟨hls, hws, _, hMS⟩ := invert_spec hl hw (by omega) hs
    exact mat_mul_identity_of hl hw hls hws hMS

theorem invert_products_identity_witness :
    wellFormed ([[1, 2], [3, 8]] : Mat ℚ) ∧
    is_invertible ([[1, 2], [3, 8]] : Mat ℚ) = true ∧
    ((∃ s, invert_with_cofactors ([[1, 2], [3, 8]] : Mat ℚ) = some (some s)) ∧
      (∀ s, invert_with_cofactors ([[1, 2], [3, 8]] : Mat ℚ) = some (some s) →
        ∃ p, mat_mul ([[1, 2], [3, 8]] : Mat ℚ) s = some (some p) ∧
          is_identity p = true) ∧
      (∀ s, invert ([[1, 2], [3, 8]] : Mat ℚ) = some (some s) →
        ∃ p, mat_mul ([[1, 2], [3, 8]] : Mat ℚ) s = some (some p) ∧
          is_identity p = true)) :=
  ⟨by decide,
    by norm_num [is_invertible, is_square, determinant, detFuel, minor, entry, rows,
      columns, List.range_succ, List.eraseIdx],
    invert_products_identity ℚ [[1, 2], [3, 8]] (by decide)
      (by norm_num [is_invertible, is_square, determinant, detFuel, minor, entry, rows,
        columns, List.range_succ, List.eraseIdx])⟩

/-- C3 counterexample: on `[[0,1],[1,0]]` over ℚ the two inversion algorithms
do not agree: the cofactor method succeeds (the matrix is its own inverse)
while the elimination method aborts on the zero pivot. -/
theorem invert_disagrees_with_cofactors_cex :
    invert_with_cofactors ([[0, 1], [1, 0]] : Mat ℚ) = some (some [[0, 1], [1, 0]]) ∧
    invert ([[0, 1], [1, 0]] : Mat ℚ) = none := by
  constructor
  · norm_num [invert_with_cofactors, wellFormed, is_invertible, is_square,
      determinant_with_cofactor_matrix, cofactor_matrix, cofactor, scalar_mul,
      scalar_vec_mul, transpose, vec_mul, determinant, detFuel, minor, entry, rows,
      columns, List.range_succ, List.eraseIdx]
  · decide

/-- C3 (amended): the agreement holds in the one attainable direction:
whenever the elimination-based `invert` completes on a well-formed square
matrix, the cofactor method also succeeds and returns the same matrix. The
converse fails: the cofactor method can succeed where elimination aborts. -/
theorem invert_agrees_with_cofactors :
    ∀ (F : Type) [Field F] [DecidableEq F] (m : Mat F),
      wellFormed m → is_square m = true →
      ∀ s, invert m = some (some s) → invert_with_cofactors m = some (some s) := by
  intro F _ _ m hwf hsq s hs
  obtain ⟨n, hl⟩ : ∃ n, m.length = n + 1 := by
    rcases m with _ | ⟨r0, t0⟩
    · rw [invert_nil] at hs
      cases hs
    · exact ⟨t0.length, rfl⟩
  have hsq' : rows m = columns m := by simpa [is_square] using hsq
  have hw : Wd (n + 1) m := fun r hr => by rw [hwf r hr, ← hsq']; exact hl
  obtain ⟨hls, hws, hSM, hMS⟩ := invert_spec hl hw (by omega) hs
  have hdet : determinant m ≠ 0 := by
    rw [determinant_eq_det n m hl hw]
    exact det_ne_zero_of_left_inverse hSM
  obtain ⟨s0, hs0, hls0, hws0, htm⟩ := invert_with_cofactors_eq hl hw hdet
  have hS0M : toMatrix s0 (n + 1) * toMatrix m (n + 1) = 1 := by
    rw [htm, Matrix.smul_mul, Matrix.adjugate_mul, ← determinant_eq_det n m hl hw,
      smul_smul, inv_mul_cancel₀ hdet, one_smul]
  have hs0s : toMatrix s0 (n + 1) = toMatrix s (n + 1) := by
    calc toMatrix s0 (n + 1)
        = toMatrix s0 (n + 1) * (toMatrix m (n + 1) * toMatrix s (n + 1)) := by
          rw [hMS, Matrix.mul_one]
      _ = toMatrix s0 (n + 1) * toMatrix m (n + 1) * toMatrix s (n + 1) := by
          rw [Matrix.mul_assoc]
      _ = toMatrix s (n + 1) := by rw [hS0M, Matrix.one_mul]
  rw [hs0, eq_of_toMatrix hls0 hws0 hls hws hs0s]

theorem invert_agrees_with_cofactors_witness :
    wellFormed ([[1, 2], [3, 8]] : Mat ℚ) ∧
    is_square ([[1, 2], [3, 8]] : Mat ℚ) = true ∧
    invert ([[1, 2], [3, 8]] : Mat ℚ) = some (some [[4, -1], [-3/2, 1/2]]) ∧
    invert_with_cofactors ([[1, 2], [3, 8]] : Mat ℚ) = some (some [[4, -1], [-3/2, 1/2]]) :=
  ⟨by decide, by decide,
    by norm_num [invert, upper_triangular, utLoop, utTerm, eliminate, solve, solveLoop,
      solveStep, is_square, rows, columns, make_identity, entry, scalar_vec_mul, vec_sub,
      vec_mul, List.range_succ, List.eraseIdx],
    invert_agrees_with_cofactors ℚ [[1, 2], [3, 8]] (by decide) (by decide)
      [[4, -1], [-3/2, 1/2]]
      (by norm_num [invert, upper_triangular, utLoop, utTerm, eliminate, solve, solveLoop,
        solveStep, is_square, rows, columns, make_identity, entry, scalar_vec_mul, vec_sub,
        vec_mul, List.range_succ, List.eraseIdx])⟩

/-- C7 counterexample: `[[0,1],[1,0]]` over `ZMod 11` is invertible and
`apply_matrix` on `v = [1,2]` is fine, yet `invert` aborts on the zero
pivot, so the claimed round trip `apply_matrix (invert m) (apply_matrix m v)`
fatally fails rather than returning `v`. -/
theorem apply_matrix_roundtrip_cex :
    apply_matrix ([[0, 1], [1, 0]] : Mat (ZMod 11)) [1, 2] = [2, 1] ∧
    is_invertible ([[0, 1], [1, 0]] : Mat (ZMod 11)) = true ∧
    invert ([[0, 1], [1, 0]] : Mat (ZMod 11)) = none :=
  ⟨by decide, by decide, by decide⟩

/-- C7 (amended): the round trip holds whenever `invert` actually completes:
for well-formed square `m` with `invert m = some (some s)` and any vector `v`
of matching width, right-applying `m` and then `s` returns `v`. -/
theorem apply_matrix_invert_roundtrip :
    ∀ (F : Type) [Field F] [DecidableEq F] (m : Mat F) (v : List F),
      wellFormed m → is_square m = true → v.length = rows m →
      ∀ s, invert m = some (some s) →
        apply_matrix s (apply_matrix m v) = v := by
  intro F _ _ m v hwf hsq hvl s hs
  obtain ⟨n, hl⟩ : ∃ n, m.length = n + 1 := by
    rcases m with _ | ⟨r0, t0⟩
    · rw [invert_nil] at hs
      cases hs
    · exact ⟨t0.length, rfl⟩
  have hsq' : rows m = columns m := by simpa [is_square] using hsq
  have hw : Wd (n + 1) m := fun r hr => by rw [hwf r hr, ← hsq']; exact hl
  obtain ⟨hls, hws, _, hMS⟩ := invert_spec hl hw (by omega) hs
  have hvn : v.length = n + 1 := hvl.trans hl
  have hmv : (apply_matrix m v).length = n + 1 := by rw [apply_matrix_length, hvn]
  apply eq_of_getD (0 : F) (by rw [apply_matrix_length, hmv, hvn])
  intro j
  rcases Nat.lt_or_ge j (n + 1) with hj | hj
  · rw [apply_matrix_vecMul hls hmv hj]
    have hfun : (fun i : Fin (n + 1) => (apply_matrix m v).getD i.val 0)
        = Matrix.vecMul (fun i : Fin (n + 1) => v.getD i.val 0) (toMatrix m (n + 1)) := by
      funext i
      simpa using apply_matrix_vecMul hl hvn i.isLt
    rw [hfun, Matrix.vecMul_vecMul, hMS, Matrix.vecMul_one]
  · rw [getD_ge _ _ (by rw [apply_matrix_length, hmv]; exact hj),
      getD_ge _ _ (by rw [hvn]; exact hj)]

theorem apply_matrix_invert_roundtrip_witness :
    wellFormed ([[1, 2], [3, 8]] : Mat ℚ) ∧
    is_square ([[1, 2], [3, 8]] : Mat ℚ) = true ∧
    ([1, 1] : List ℚ).length = rows ([[1, 2], [3, 8]] : Mat ℚ) ∧
    invert ([[1, 2], [3, 8]] : Mat ℚ) = some (some [[4, -1], [-3/2, 1/2]]) ∧
    apply_matrix ([[4, -1], [-3/2, 1/2]] : Mat ℚ)
      (apply_matrix ([[1, 2], [3, 8]] : Mat ℚ) [1, 1]) = [1, 1] :=
  ⟨by decide, by decide, by decide,
    by norm_num [invert, upper_triangular, utLoop, utTerm, eliminate, solve, solveLoop,
      solveStep, is_square, rows, columns, make_identity, entry, scalar_vec_mul, vec_sub,
      vec_mul, List.range_succ, List.eraseIdx],
    apply_matrix_invert_roundtrip ℚ [[1, 2], [3, 8]] [1, 1] (by decide) (by decide)
      (by decide) [[4, -1], [-3/2, 1/2]]
      (by norm_num [invert, upper_triangular, utLoop, utTerm, eliminate, solve, solveLoop,
        solveStep, is_square, rows, columns, make_identity, entry, scalar_vec_mul, vec_sub,
        vec_mul, List.range_succ, List.eraseIdx])⟩

end Neptune
